import Mathlib

/-!
Verification of the shortest-path core of the repository
(`task_3_dijkstra_heap.py`): the adjacency-list `Graph` with `add_edge`,
the lazy-deletion Dijkstra loop `Graph.dijkstra`, and `Graph.reconstruct_path`.

Modelling conventions:
* Python `float` weights and distances are modelled as rationals (`ℚ`);
  the programs perform only additions and comparisons, which agree with
  exact rational arithmetic.
* The Python value `float('inf')` (the initial distance of every vertex)
  is modelled as `none : Option ℚ`; a finite distance `d` is `some d`.
* A Python `dict` / `defaultdict` keyed by vertices is modelled as a pair of
  an insertion-ordered key list and a total value function; a `defaultdict`
  read that would create a missing key is modelled explicitly
  (`Graph.getAdjD`), so that the absence of hidden mutation is a theorem
  rather than an artefact of the embedding.
* `heapq` is modelled as a multiset of `(distance, vertex)` pairs (a list)
  whose pop operation removes the minimum under the lexicographic order on
  pairs, exactly the observable behaviour of a binary heap of tuples.
* The unbounded `while heap:` loop is modelled with explicit fuel; the
  fuel `totalDeg g + 2` used by `Graph.dijkstra` is proved sufficient for
  well-formed graphs (`loopN_completes` below), so the embedding computes
  the same result as the Python loop.
-/

namespace DijkstraHeap

/-- Pointwise update of a total function, modelling `m[k] = v` on a dict. -/
def updF {V : Type} [DecidableEq V] {β : Type} (f : V → β) (a : V) (b : β) : V → β :=
  fun x => if x = a then b else f x

/-- Lexicographic order on heap entries `(distance, vertex)`, the order by
which Python compares the tuples stored in the `heapq` heap. -/
def entryLe {V : Type} [LinearOrder V] (a b : ℚ × V) : Prop :=
  a.1 < b.1 ∨ (a.1 = b.1 ∧ a.2 ≤ b.2)

instance {V : Type} [LinearOrder V] : DecidablePred fun p : (ℚ × V) × (ℚ × V) => entryLe p.1 p.2 :=
  fun _ => by unfold entryLe; infer_instance

instance entryLeDec {V : Type} [LinearOrder V] (a b : ℚ × V) : Decidable (entryLe a b) := by
  unfold entryLe; infer_instance

/-- Remove one occurrence of the lexicographically least entry of the heap,
returning it together with the remaining entries; `none` on the empty heap.
This is the observable behaviour of `heapq.heappop`. -/
def popMin {V : Type} [LinearOrder V] : List (ℚ × V) → Option ((ℚ × V) × List (ℚ × V))
  | [] => none
  | x :: t =>
    match popMin t with
    | none => some (x, [])
    | some (m, r) => if entryLe x m then some (x, t) else some (m, x :: r)

/-- Test `a < b` where `b : Option ℚ` encodes a possibly-infinite distance
(`none` being `float('inf')`); `a < inf` is true. -/
def ltD (a : ℚ) : Option ℚ → Bool
  | none => true
  | some c => decide (a < c)

/-- Test `a > b` on a possibly-infinite `b`; `a > inf` is false.  Used by the
specification's formulation of the staleness test. -/
def gtD (a : ℚ) : Option ℚ → Bool
  | none => false
  | some c => decide (c < a)

/-- Adjacency-list graph: the insertion-ordered key list of the Python
`defaultdict(list)` together with the adjacency function.  `adj u` is the
list of `(neighbor, weight)` pairs of `u`. -/
structure Graph (V : Type) where
  keys : List V
  adj : V → List (V × ℚ)

/-- The empty graph, `Graph()` in the source. -/
def Graph.empty {V : Type} : Graph V := ⟨[], fun _ => []⟩

/-- Read `self.adj[u]` on the `defaultdict`: if `u` is missing the key is
created with an empty list (this is the only hidden mutation a lookup can
cause, and it is modelled explicitly so claim C8 is meaningful). -/
def Graph.getAdjD {V : Type} [DecidableEq V] (g : Graph V) (u : V) :
    List (V × ℚ) × Graph V :=
  if u ∈ g.keys then (g.adj u, g)
  else ([], { keys := g.keys ++ [u], adj := updF g.adj u [] })

/-- Error message of the negative-weight rejection in `add_edge`. -/
def invalidWeightMsg : String := "Dijkstra does not support negative edge weights."

/-- Error message of the unknown-source rejection in `dijkstra`. -/
def unknownSourceMsg : String := "source vertex is absent from the graph."

/-- The `Graph.add_edge` method: reject negative weights, append `(v, w)` to
`adj[u]` (a `defaultdict` access creating `u` if needed), ensure `v` is a
key, and mirror the edge when `undirected` is set. -/
def Graph.addEdge {V : Type} [DecidableEq V] (g : Graph V) (u v : V) (w : ℚ)
    (undirected : Bool) : Except String (Graph V) :=
  if w < 0 then .error invalidWeightMsg
  else
    let p := g.getAdjD u
    let g1 : Graph V := { keys := p.2.keys, adj := updF p.2.adj u (p.1 ++ [(v, w)]) }
    let g2 : Graph V :=
      if v ∈ g1.keys then g1
      else { keys := g1.keys ++ [v], adj := updF g1.adj v [] }
    let g3 : Graph V :=
      if undirected then
        let q := g2.getAdjD v
        { keys := q.2.keys, adj := updF q.2.adj v (q.1 ++ [(u, w)]) }
      else g2
    .ok g3

/-- Well-formedness of a graph as produced by `add_edge` calls: the key list
has no duplicates, and every edge of a known vertex points to a known vertex
and carries a non-negative weight. -/
def Graph.WF {V : Type} (g : Graph V) : Prop :=
  g.keys.Nodup ∧ ∀ u ∈ g.keys, ∀ e ∈ g.adj u, e.1 ∈ g.keys ∧ 0 ≤ e.2

instance {V : Type} [DecidableEq V] (g : Graph V) : Decidable g.WF := by
  unfold Graph.WF; infer_instance

/-- The adjacency function is trivial outside the key list.  This holds for
every graph reachable from `Graph()` by `add_edge` calls (the `defaultdict`
stores nothing for absent keys) and is preserved by `add_edge`. -/
def Graph.Clean {V : Type} (g : Graph V) : Prop :=
  ∀ x, x ∉ g.keys → g.adj x = []

/-- Total number of adjacency entries of the known vertices (each edge of the
graph counted once); bounds the number of heap pushes of a Dijkstra run. -/
def Graph.totalDeg {V : Type} (g : Graph V) : ℕ :=
  (g.keys.map fun u => (g.adj u).length).sum

/-- State of the Dijkstra main loop: the `dist` and `prev` dicts (as total
functions, with key set `g.keys`), the pending heap, and the graph (threaded
because a `defaultdict` read could mutate it). -/
structure DState (V : Type) where
  dist : V → Option ℚ
  prev : V → Option V
  heap : List (ℚ × V)
  graph : Graph V

/-- Relaxation of one adjacency entry `e = (v, w)` out of `u`, popped at
distance `d`: if `alt = d + w` improves `dist[v]`, record it, set
`prev[v] = u` and push `(alt, v)`. -/
def relaxEdge {V : Type} [DecidableEq V] (u : V) (d : ℚ) (st : DState V)
    (e : V × ℚ) : DState V :=
  let alt := d + e.2
  if ltD alt (st.dist e.1) then
    { st with
      dist := updF st.dist e.1 (some alt)
      prev := updF st.prev e.1 (some u)
      heap := (alt, e.1) :: st.heap }
  else st

/-- The `for v, w in self.adj[u]:` relaxation loop (the adjacency read going
through the `defaultdict`). -/
def relaxAll {V : Type} [DecidableEq V] (u : V) (d : ℚ) (st : DState V) : DState V :=
  let p := st.graph.getAdjD u
  p.1.foldl (relaxEdge u d) { st with graph := p.2 }

/-- One iteration of the `while heap:` loop as written in the source: pop the
minimal entry `(d, u)`; if `d != dist[u]` the entry is stale and skipped,
otherwise the edges of `u` are relaxed.  Returns `none` when the heap is
empty (loop exit). -/
def stepNe {V : Type} [DecidableEq V] [LinearOrder V] (st : DState V) : Option (DState V) :=
  match popMin st.heap with
  | none => none
  | some (m, rest) =>
    let st1 : DState V := { st with heap := rest }
    if some m.1 = st1.dist m.2 then some (relaxAll m.2 m.1 st1) else some st1

/-- One iteration of the loop with the specification's staleness test: the
entry is discarded exactly when `d` is strictly greater than the recorded
best distance of `u`.  Used only for the refinement claim C7. -/
def stepGt {V : Type} [DecidableEq V] [LinearOrder V] (st : DState V) : Option (DState V) :=
  match popMin st.heap with
  | none => none
  | some (m, rest) =>
    let st1 : DState V := { st with heap := rest }
    if gtD m.1 (st1.dist m.2) then some st1 else some (relaxAll m.2 m.1 st1)

/-- Fuel-indexed iteration of `stepNe`; `loopN n st` is the loop state after
at most `n` iterations (the state is fixed once the heap is empty). -/
def loopN {V : Type} [DecidableEq V] [LinearOrder V] : ℕ → DState V → DState V
  | 0, st => st
  | n + 1, st =>
    match stepNe st with
    | none => st
    | some st1 => loopN n st1

/-- Fuel-indexed iteration of `stepGt`. -/
def loopGtN {V : Type} [DecidableEq V] [LinearOrder V] : ℕ → DState V → DState V
  | 0, st => st
  | n + 1, st =>
    match stepGt st with
    | none => st
    | some st1 => loopGtN n st1

/-- Initial loop state of `dijkstra(source)`: every distance infinite except
`dist[source] = 0`, every predecessor `None`, heap `[(0.0, source)]`. -/
def initState {V : Type} [DecidableEq V] (g : Graph V) (s : V) : DState V :=
  { dist := updF (fun _ => none) s (some 0)
    prev := fun _ => none
    heap := [(0, s)]
    graph := g }

/-- The `Graph.dijkstra` method.  Unknown sources are rejected; otherwise the
lazy-deletion loop is run to completion (the fuel `totalDeg g + 2` is proved
sufficient for well-formed graphs in `loopN_completes`).  The final state
carries the returned `dist` and `prev` maps (whose dict key set is `g.keys`)
and the graph after the run. -/
def Graph.dijkstra {V : Type} [DecidableEq V] [LinearOrder V] (g : Graph V) (s : V) :
    Except String (DState V) :=
  if s ∈ g.keys then .ok (loopN (g.totalDeg + 2) (initState g s))
  else .error unknownSourceMsg

/-- Variant of `Graph.dijkstra` whose loop uses the specification's
strictly-greater staleness test (`stepGt`) instead of the code's inequality
test; claim C7 states that it computes the same result. -/
def Graph.dijkstraGt {V : Type} [DecidableEq V] [LinearOrder V] (g : Graph V) (s : V) :
    Except String (DState V) :=
  if s ∈ g.keys then .ok (loopGtN (g.totalDeg + 2) (initState g s))
  else .error unknownSourceMsg

/-- The backward collection loop of `reconstruct_path`: starting from
`cur = some target`, append the current vertex and follow `prev` until
`None`.  The Python loop is unbounded; it terminates exactly when the
predecessor links from `target` are acyclic, which is proved below for every
map produced by a Dijkstra run, and the fuel used by `reconstructPath`
(`keys.length + 1`) is proved sufficient there. -/
def walkBackAux {V : Type} (prev : V → Option V) : ℕ → Option V → List V
  | _, none => []
  | 0, some _ => []
  | n + 1, some v => v :: walkBackAux prev n (prev v)

/-- The static method `Graph.reconstruct_path(prev, target)`: empty sequence
when `target` is not a key of the `prev` dict, otherwise the collected
backward walk reversed into source → target order.  The `prev` dict is
passed as its key list and value function. -/
def reconstructPath {V : Type} [DecidableEq V] (keys : List V) (prev : V → Option V)
    (target : V) : List V :=
  if target ∈ keys then (walkBackAux prev (keys.length + 1) (some target)).reverse
  else []

/-- A path (a sequence of consecutive directed edges, vertices may repeat)
from `u` to `v` in `g` whose edge weights sum to `c`. -/
inductive IsPath {V : Type} (g : Graph V) : V → V → ℚ → Prop
  | nil (u : V) (hu : u ∈ g.keys) : IsPath g u u 0
  | cons {u v x : V} {c w : ℚ} (hp : IsPath g u v c) (he : (x, w) ∈ g.adj v) :
      IsPath g u x (c + w)

/-- Following the predecessor links from `a` reaches `b` in exactly `n`
steps. -/
inductive ReachIn {V : Type} (prev : V → Option V) : ℕ → V → V → Prop
  | refl (a : V) : ReachIn prev 0 a a
  | step {a b c : V} {n : ℕ} (h : prev a = some b) (hr : ReachIn prev n b c) :
      ReachIn prev (n + 1) a c

/-- Every outgoing edge of `u` is relaxed with respect to the distance map:
`dist[v] ≤ du + w` for each edge `(v, w)` of `u`. -/
def Relaxed {V : Type} (g : Graph V) (dist : V → Option ℚ) (u : V) (du : ℚ) : Prop :=
  ∀ e ∈ g.adj u, ∃ dv, dist e.1 = some dv ∧ dv ≤ du + e.2

/-- Core of the Dijkstra loop invariant, relative to the input graph `g` and
source `s` (everything except the coverage property, which is temporarily
broken for the popped vertex while its edges are being relaxed). -/
structure InvCore {V : Type} [DecidableEq V] [LinearOrder V] (g : Graph V) (s : V) (st : DState V) : Prop where
  graphEq : st.graph = g
  dom : ∀ e ∈ st.heap, ∃ de, st.dist e.2 = some de ∧ de ≤ e.1
  uniq : ∀ u du, st.dist u = some du →
    (st.heap.countP fun e => decide (e = (du, u))) ≤ 1
  sound : ∀ u du, st.dist u = some du → IsPath g s u du
  srcZero : st.dist s = some 0
  nonneg : ∀ u du, st.dist u = some du → 0 ≤ du
  prevSrc : st.prev s = none
  prevDist : ∀ v u, st.prev v = some u →
    ∃ du dv, st.dist u = some du ∧ st.dist v = some dv ∧ du ≤ dv
  prevChain : ∀ v dv, st.dist v = some dv → ∃ n, ReachIn st.prev n v s
  prevKeys : ∀ v u, st.prev v = some u → v ∈ g.keys ∧ u ∈ g.keys
  distKeys : ∀ v dv, st.dist v = some dv → v ∈ g.keys

/-- Dijkstra loop invariant: the core together with coverage — every vertex
with a finite recorded distance either still has its current entry pending in
the heap or has all its outgoing edges relaxed. -/
structure Inv {V : Type} [DecidableEq V] [LinearOrder V] (g : Graph V) (s : V) (st : DState V)
    extends InvCore g s st : Prop where
  cover : ∀ u du, st.dist u = some du →
    (du, u) ∈ st.heap ∨ Relaxed g st.dist u du

/-- Invariant of the relaxation fold over the edges of the freshly popped
vertex `u` (popped at its recorded distance `du`): the core invariant, the
fixed distance of `u`, and coverage for every vertex other than `u`. -/
structure FoldInv {V : Type} [DecidableEq V] [LinearOrder V] (g : Graph V) (s u : V) (du : ℚ)
    (st : DState V) extends InvCore g s st : Prop where
  distU : st.dist u = some du
  coverO : ∀ x dx, st.dist x = some dx → x ≠ u →
    (dx, x) ∈ st.heap ∨ Relaxed g st.dist x dx

/-- A vertex whose distance is final: its recorded distance is below every
heap entry and strictly below every heap entry for the vertex itself (all
its own pending entries are stale).  Used as the termination measure. -/
def poppedB {V : Type} [DecidableEq V] [LinearOrder V] (st : DState V) (u : V) : Bool :=
  match st.dist u with
  | none => false
  | some du =>
    (st.heap.all fun e => decide (du ≤ e.1)) &&
    (st.heap.all fun e => decide (e.2 = u → du < e.1))

/-- Termination measure of the loop: pending heap entries plus the degrees of
the not-yet-final vertices. -/
def measureSt {V : Type} [DecidableEq V] [LinearOrder V] (g : Graph V) (st : DState V) : ℕ :=
  st.heap.length +
    ((g.keys.filter fun u => ! poppedB st u).map fun u => (g.adj u).length).sum

/-- Two graphs with the same vertex set and, for every vertex, the same
multiset of adjacency entries.  Graphs built from permuted edge-insertion
sequences agree up to this relation, and Dijkstra distances only depend on
the graph through it. -/
def GEquiv {V : Type} (g1 g2 : Graph V) : Prop :=
  (∀ x, x ∈ g1.keys ↔ x ∈ g2.keys) ∧ ∀ u, (g1.adj u).Perm (g2.adj u)

/-- A graph that is both `Clean` and well-formed; every graph built by
`add_edge` calls from the empty graph satisfies this. -/
def Good {V : Type} (g : Graph V) : Prop :=
  g.Clean ∧ g.WF

/-- Build a graph from a list of edge triples by successive `add_edge` calls,
as `demo_graph` and `read_edges_from_file` do. -/
def buildGraph {V : Type} [DecidableEq V] (es : List (V × V × ℚ)) (undirected : Bool) :
    Except String (Graph V) :=
  es.foldlM (fun g e => g.addEdge e.1 e.2.1 e.2.2 undirected) Graph.empty

/-- Edge list of `demo_graph` in the source. -/
def demoEdges : List (String × String × ℚ) :=
  [("A", "B", 4), ("A", "C", 2), ("B", "C", 1), ("B", "D", 5),
   ("C", "D", 8), ("C", "E", 10), ("D", "E", 2), ("B", "E", 6)]

/-- The demo graph built with `undirected=True`, then run from source `A`,
as in the concrete scenario of the specification. -/
def demoRun : Except String (DState String) := do
  let g ← buildGraph demoEdges true
  g.dijkstra "A"

deriving instance DecidableEq for Except

/-- The demo graph as a concrete `Graph` value (the undirected build of
`demoEdges` succeeds, all weights being non-negative). -/
def demoG : Graph String := (buildGraph demoEdges true).toOption.getD Graph.empty

/-- Final loop state of the demo run from source `A`. -/
def demoSt : DState String := (demoG.dijkstra "A").toOption.getD (initState demoG "A")

/-- The demo edges in reversed insertion order (a permutation of
`demoEdges`), used to witness insertion-order independence. -/
def demoEdgesRev : List (String × String × ℚ) := demoEdges.reverse

/-- The demo graph built from the reversed insertion order. -/
def demoGRev : Graph String := (buildGraph demoEdgesRev true).toOption.getD Graph.empty

/-- Final loop state of the run on the reversed-order demo graph. -/
def demoStRev : DState String :=
  (demoGRev.dijkstra "A").toOption.getD (initState demoGRev "A")

/-- A small two-component graph: directed edges A→B and C→D, so that `C` is a
known vertex unreachable from source `A`. -/
def pairEdges : List (String × String × ℚ) := [("A", "B", 1), ("C", "D", 1)]

/-- The two-component graph as a concrete value. -/
def pairG : Graph String := (buildGraph pairEdges false).toOption.getD Graph.empty

/-- Final loop state of the run on the two-component graph from source `A`. -/
def pairSt : DState String := (pairG.dijkstra "A").toOption.getD (initState pairG "A")

/-- Weight of the edge `u → v` as `reconstruct_path` callers would read it
back: the first matching adjacency entry of `u`. -/
def edgeWeight {V : Type} [DecidableEq V] (g : Graph V) (u v : V) : Option ℚ :=
  ((g.adj u).find? fun e => e.1 = v).map (·.2)

/-- Total weight of a vertex sequence read as a path in `g`; `none` when some
consecutive pair is not an edge or the list is empty. -/
def pathWeight {V : Type} [DecidableEq V] (g : Graph V) : List V → Option ℚ
  | [] => none
  | [_] => some 0
  | u :: v :: rest => do
    let w ← edgeWeight g u v
    let c ← pathWeight g (v :: rest)
    pure (w + c)

end DijkstraHeap

namespace DijkstraHeap

section BasicLemmas

variable {V : Type} [DecidableEq V] [LinearOrder V]

theorem updF_self {β : Type} (f : V → β) (a : V) (b : β) : updF f a b a = b := by
  simp [updF]

theorem updF_ne {β : Type} (f : V → β) (a : V) (b : β) {x : V} (h : x ≠ a) :
    updF f a b x = f x := by
  simp [updF, h]

theorem entryLe_refl (a : ℚ × V) : entryLe a a := Or.inr ⟨rfl, le_rfl⟩

theorem entryLe_trans {a b c : ℚ × V} (hab : entryLe a b) (hbc : entryLe b c) :
    entryLe a c := by
  rcases hab with h1 | ⟨h1, h2⟩ <;> rcases hbc with h3 | ⟨h3, h4⟩
  · exact Or.inl (lt_trans h1 h3)
  · exact Or.inl (h3 ▸ h1)
  · exact Or.inl (h1 ▸ h3)
  · exact Or.inr ⟨h1.trans h3, h2.trans h4⟩

theorem entryLe_of_not {a b : ℚ × V} (h : ¬ entryLe a b) : entryLe b a := by
  rcases lt_trichotomy b.1 a.1 with h1 | h1 | h1
  · exact Or.inl h1
  · rcases le_total b.2 a.2 with h2 | h2
    · exact Or.inr ⟨h1, h2⟩
    · exact absurd (Or.inr ⟨h1.symm, h2⟩) h
  · exact absurd (Or.inl h1) h

theorem entryLe_fst {a b : ℚ × V} (h : entryLe a b) : a.1 ≤ b.1 := by
  rcases h with h | ⟨h, _⟩
  · exact le_of_lt h
  · exact le_of_eq h

theorem popMin_eq_none {h : List (ℚ × V)} : popMin h = none ↔ h = [] := by
  cases h with
  | nil => simp [popMin]
  | cons x t =>
    simp only [popMin]
    constructor
    · intro hc
      cases ht : popMin t with
      | none => rw [ht] at hc; exact absurd hc (by simp)
      | some p => rw [ht] at hc; cases p with
        | mk m r => by_cases he : entryLe x m <;> simp [he] at hc
    · intro hc; exact absurd hc (by simp)


theorem popMin_perm : ∀ {h : List (ℚ × V)} {m : ℚ × V} {r : List (ℚ × V)},
    popMin h = some (m, r) → h.Perm (m :: r) := by
  intro h
  induction h with
  | nil => intro m r hc; simp [popMin] at hc
  | cons x t ih =>
    intro m r hc
    simp only [popMin] at hc
    cases ht : popMin t with
    | none =>
      rw [ht] at hc
      simp only [Option.some.injEq, Prod.mk.injEq] at hc
      obtain ⟨rfl, rfl⟩ := hc
      have h0 : t = [] := popMin_eq_none.mp ht
      subst h0
      exact List.Perm.refl _
    | some p =>
      rw [ht] at hc
      obtain ⟨m0, r0⟩ := p
      by_cases he : entryLe x m0
      · simp [he] at hc
        obtain ⟨rfl, rfl⟩ := hc
        exact List.Perm.refl _
      · simp [he] at hc
        obtain ⟨rfl, rfl⟩ := hc
        exact ((ih ht).cons x).trans (List.Perm.swap _ _ _)

theorem popMin_le {h : List (ℚ × V)} {m : ℚ × V} {r : List (ℚ × V)}
    (hp : popMin h = some (m, r)) : ∀ y ∈ h, entryLe m y := by
  induction h generalizing m r with
  | nil => simp [popMin] at hp
  | cons x t ih =>
    simp only [popMin] at hp
    cases ht : popMin t with
    | none =>
      rw [ht] at hp
      simp only [Option.some.injEq, Prod.mk.injEq] at hp
      obtain ⟨rfl, rfl⟩ := hp
      have h0 : t = [] := popMin_eq_none.mp ht
      subst h0
      intro y hy
      simp only [List.mem_singleton] at hy
      subst hy
      exact entryLe_refl _
    | some p =>
      rw [ht] at hp
      obtain ⟨m0, r0⟩ := p
      by_cases he : entryLe x m0
      · simp [he] at hp
        obtain ⟨rfl, rfl⟩ := hp
        intro y hy
        rcases List.mem_cons.mp hy with rfl | hy
        · exact entryLe_refl _
        · exact entryLe_trans he (ih ht y hy)
      · simp [he] at hp
        obtain ⟨rfl, rfl⟩ := hp
        intro y hy
        rcases List.mem_cons.mp hy with rfl | hy
        · exact entryLe_of_not he
        · exact ih ht y hy

theorem popMin_mem {h : List (ℚ × V)} {m : ℚ × V} {r : List (ℚ × V)}
    (hp : popMin h = some (m, r)) : m ∈ h :=
  (popMin_perm hp).mem_iff.mpr (List.mem_cons_self _ _)

theorem popMin_length {h : List (ℚ × V)} {m : ℚ × V} {r : List (ℚ × V)}
    (hp : popMin h = some (m, r)) : h.length = r.length + 1 := by
  have := (popMin_perm hp).length_eq
  simpa using this

theorem mem_rest_of_ne {h : List (ℚ × V)} {m a : ℚ × V} {r : List (ℚ × V)}
    (hp : popMin h = some (m, r)) (ha : a ∈ h) (hne : a ≠ m) : a ∈ r := by
  rcases List.mem_cons.mp ((popMin_perm hp).mem_iff.mp ha) with rfl | h0
  · exact absurd rfl hne
  · exact h0

theorem countP_popMin {h : List (ℚ × V)} {m : ℚ × V} {r : List (ℚ × V)}
    (hp : popMin h = some (m, r)) (p : ℚ × V → Bool) :
    h.countP p = r.countP p + (if p m then 1 else 0) := by
  have := (popMin_perm hp).countP_eq p
  rw [this, List.countP_cons]

theorem not_mem_rest {h : List (ℚ × V)} {m : ℚ × V} {r : List (ℚ × V)}
    (hp : popMin h = some (m, r))
    (hu : (h.countP fun e => decide (e = m)) ≤ 1) : m ∉ r := by
  intro hmem
  have h1 := countP_popMin hp (fun e => decide (e = m))
  have h2 : 0 < r.countP fun e => decide (e = m) :=
    List.countP_pos_iff.mpr ⟨m, hmem, by simp⟩
  rw [h1, if_pos (by simp)] at hu
  omega

theorem reach_trans {p : V → Option V} {i j : ℕ} {a b c : V}
    (h1 : ReachIn p i a b) (h2 : ReachIn p j b c) : ReachIn p (i + j) a c := by
  induction h1 with
  | refl a => simpa using h2
  | step h hr ih =>
    have h3 := ReachIn.step h (ih h2)
    rwa [Nat.add_right_comm]

theorem reach_det {p : V → Option V} {s : V} (hs : p s = none) :
    ∀ {n m : ℕ} {a : V}, ReachIn p n a s → ReachIn p m a s → n = m := by
  intro n
  induction n with
  | zero =>
    intro m a h1 h2
    cases h1 with
    | refl =>
      cases h2 with
      | refl => rfl
      | step h hr => rw [hs] at h; simp at h
  | succ n ih =>
    intro m a h1 h2
    cases h1 with
    | step h hr =>
      rename_i b
      cases h2 with
      | refl => rw [hs] at h; simp at h
      | step h3 hr3 =>
        rename_i b3 n3
        rw [h] at h3
        have hb : b = b3 := Option.some.inj h3
        subst hb
        rw [ih hr hr3]

theorem reach_mem_keys {p : V → Option V} {K : List V} {n : ℕ} {a b : V}
    (hK : ∀ x y, p x = some y → y ∈ K) (ha : a ∈ K) (h : ReachIn p n a b) :
    b ∈ K := by
  induction h with
  | refl a => exact ha
  | step h hr ih => exact ih (hK _ _ h)

theorem walkBack_none {p : V → Option V} (F : ℕ) : walkBackAux p F none = [] := by
  cases F <;> rfl

theorem walkBack_succ {p : V → Option V} (F : ℕ) (v : V) :
    walkBackAux p (F + 1) (some v) = v :: walkBackAux p F (p v) := rfl

theorem walkBack_getLast_length {p : V → Option V} {s : V} (hs : p s = none) :
    ∀ (n : ℕ) (v : V), ReachIn p n v s → ∀ (F : ℕ), n < F →
      (walkBackAux p F (some v)).getLast? = some s ∧
      (walkBackAux p F (some v)).length = n + 1 := by
  intro n
  induction n with
  | zero =>
    intro v h F hF
    cases h with
    | refl =>
      obtain ⟨F0, rfl⟩ : ∃ F0, F = F0 + 1 := ⟨F - 1, by omega⟩
      rw [walkBack_succ, hs, walkBack_none]
      simp
  | succ n ih =>
    intro v h F hF
    cases h with
    | step hpv hr =>
      rename_i b
      obtain ⟨F0, rfl⟩ : ∃ F0, F = F0 + 1 := ⟨F - 1, by omega⟩
      obtain ⟨ih1, ih2⟩ := ih b hr F0 (by omega)
      rw [walkBack_succ, hpv]
      constructor
      · rcases hL : walkBackAux p F0 (some b) with _ | ⟨y, L0⟩
        · rw [hL] at ih2; simp at ih2
        · rw [hL] at ih1
          rw [List.getLast?_cons_cons]
          exact ih1
      · simp [ih2]

theorem mem_walkBack_reach {p : V → Option V} {s : V} (hs : p s = none) :
    ∀ (n : ℕ) (v : V), ReachIn p n v s → ∀ (F : ℕ), n < F →
      ∀ x ∈ walkBackAux p F (some v),
        ∃ j k, j + k = n ∧ ReachIn p j v x ∧ ReachIn p k x s := by
  intro n
  induction n with
  | zero =>
    intro v h F hF x hx
    cases h with
    | refl =>
      obtain ⟨F0, rfl⟩ : ∃ F0, F = F0 + 1 := ⟨F - 1, by omega⟩
      rw [walkBack_succ, hs, walkBack_none] at hx
      simp only [List.mem_singleton] at hx
      subst hx
      exact ⟨0, 0, rfl, ReachIn.refl _, ReachIn.refl _⟩
  | succ n ih =>
    intro v h F hF x hx
    cases h with
    | step hpv hr =>
      rename_i b
      obtain ⟨F0, rfl⟩ : ∃ F0, F = F0 + 1 := ⟨F - 1, by omega⟩
      rw [walkBack_succ, hpv] at hx
      rcases List.mem_cons.mp hx with rfl | hx
      · exact ⟨0, n + 1, by omega, ReachIn.refl _, ReachIn.step hpv hr⟩
      · obtain ⟨j, k, hjk, hj, hk⟩ := ih b hr F0 (by omega) x hx
        exact ⟨j + 1, k, by omega, ReachIn.step hpv hj, hk⟩

theorem walkBack_nodup {p : V → Option V} {s : V} (hs : p s = none) :
    ∀ (n : ℕ) (v : V), ReachIn p n v s → ∀ (F : ℕ), n < F →
      (walkBackAux p F (some v)).Nodup := by
  intro n
  induction n with
  | zero =>
    intro v h F hF
    cases h with
    | refl =>
      obtain ⟨F0, rfl⟩ : ∃ F0, F = F0 + 1 := ⟨F - 1, by omega⟩
      rw [walkBack_succ, hs, walkBack_none]
      simp
  | succ n ih =>
    intro v h F hF
    cases h with
    | step hpv hr =>
      rename_i b
      obtain ⟨F0, rfl⟩ : ∃ F0, F = F0 + 1 := ⟨F - 1, by omega⟩
      rw [walkBack_succ, hpv]
      refine List.nodup_cons.mpr ⟨?_, ih b hr F0 (by omega)⟩
      intro hmem
      obtain ⟨j, k, hjk, hj, hk⟩ := mem_walkBack_reach hs n b hr F0 (by omega) _ hmem
      have h1 : ReachIn p (n + 1) v s := ReachIn.step hpv hr
      have h2 := reach_det hs hk h1
      omega

theorem reach_dist_le {prev : V → Option V} {dist : V → Option ℚ}
    (hPD : ∀ v u, prev v = some u →
      ∃ du dv, dist u = some du ∧ dist v = some dv ∧ du ≤ dv)
    {n : ℕ} {a b : V} (h : ReachIn prev n a b) :
    ∀ da, dist a = some da → ∃ db, dist b = some db ∧ db ≤ da := by
  induction h with
  | refl a => exact fun da hda => ⟨da, hda, le_rfl⟩
  | step h hr ih =>
    intro da hda
    obtain ⟨db0, da0, hb0, ha0, hle⟩ := hPD _ _ h
    rw [hda] at ha0
    obtain rfl : da0 = da := (Option.some.inj ha0).symm
    obtain ⟨db, hdb, hle2⟩ := ih db0 hb0
    exact ⟨db, hdb, hle2.trans hle⟩

theorem reach_avoid {prev : V → Option V} {t : V} {pu : Option V} :
    ∀ {n : ℕ} {a b : V}, ReachIn prev n a b → (∀ k, ¬ ReachIn prev k a t) →
      ReachIn (updF prev t pu) n a b := by
  intro n a b h
  induction h with
  | refl a => intro _; exact ReachIn.refl _
  | step h hr ih =>
    intro hav
    rename_i a0 b0 c0 n0
    have hat : a0 ≠ t := fun hc => hav 0 (hc ▸ ReachIn.refl _)
    have hav2 : ∀ k, ¬ ReachIn prev k b0 t := fun k hc => hav (k + 1) (ReachIn.step h hc)
    exact ReachIn.step (by rw [updF_ne _ _ _ hat]; exact h) (ih hav2)

theorem reach_subst {prev : V → Option V} {t s : V} {pu : Option V} :
    ∀ {n : ℕ} {x : V}, ReachIn prev n x s →
      (∃ m, ReachIn (updF prev t pu) m t s) →
      ∃ m, ReachIn (updF prev t pu) m x s := by
  intro n x h
  induction h with
  | refl a => exact fun _ => ⟨0, ReachIn.refl _⟩
  | step h hr ih =>
    intro hnew
    rename_i a0 b0 c0 n0
    by_cases hat : a0 = t
    · subst hat; exact hnew
    · obtain ⟨m0, hm0⟩ := ih hnew
      exact ⟨m0 + 1, ReachIn.step (by rw [updF_ne _ _ _ hat]; exact h) hm0⟩

theorem relaxed_mono {g : Graph V} {dist dist2 : V → Option ℚ} {x : V} {dx : ℚ}
    (hmono : ∀ z dz, dist z = some dz → ∃ dz2, dist2 z = some dz2 ∧ dz2 ≤ dz)
    (h : Relaxed g dist x dx) : Relaxed g dist2 x dx := by
  intro e he
  obtain ⟨dz, hz, hle⟩ := h e he
  obtain ⟨dz2, hz2, hle2⟩ := hmono _ _ hz
  exact ⟨dz2, hz2, hle2.trans hle⟩

theorem relaxEdge_split (u : V) (du : ℚ) (st : DState V) (e : V × ℚ) :
    (relaxEdge u du st e = st ∧ ∃ dv, st.dist e.1 = some dv ∧ dv ≤ du + e.2) ∨
    (relaxEdge u du st e =
        { dist := updF st.dist e.1 (some (du + e.2)),
          prev := updF st.prev e.1 (some u),
          heap := (du + e.2, e.1) :: st.heap,
          graph := st.graph } ∧
      ∀ dv, st.dist e.1 = some dv → du + e.2 < dv) := by
  cases hv : st.dist e.1 with
  | none =>
    right
    constructor
    · simp [relaxEdge, ltD, hv]
    · intro dv hdv; exact absurd hdv (by simp)
  | some dv0 =>
    by_cases hlt : du + e.2 < dv0
    · right
      constructor
      · simp [relaxEdge, ltD, hv, hlt]
      · intro dv hdv
        exact (Option.some.inj hdv) ▸ hlt
    · left
      constructor
      · simp [relaxEdge, ltD, hv, hlt]
      · exact ⟨dv0, rfl, le_of_not_lt hlt⟩

theorem relaxEdge_pres {g : Graph V} {s u : V} {du : ℚ} {st : DState V} {e : V × ℚ}
    (hwf : g.WF) (hu : u ∈ g.keys) (he : e ∈ g.adj u) (hF : FoldInv g s u du st) :
    FoldInv g s u du (relaxEdge u du st e) ∧
    (∃ dv, (relaxEdge u du st e).dist e.1 = some dv ∧ dv ≤ du + e.2) ∧
    (∀ x dx, st.dist x = some dx →
      ∃ dx2, (relaxEdge u du st e).dist x = some dx2 ∧ dx2 ≤ dx) ∧
    (relaxEdge u du st e).heap.length ≤ st.heap.length + 1 ∧
    (∀ y ∈ (relaxEdge u du st e).heap, y ∈ st.heap ∨ (du ≤ y.1 ∧ y.2 ≠ u)) ∧
    (relaxEdge u du st e).graph = st.graph := by
  obtain ⟨hC, hdistU, hcoverO⟩ := hF
  have hw : 0 ≤ e.2 := (hwf.2 u hu e he).2
  have hvK : e.1 ∈ g.keys := (hwf.2 u hu e he).1
  have hdu0 : 0 ≤ du := hC.nonneg u du hdistU
  rcases relaxEdge_split u du st e with ⟨heq, hrel⟩ | ⟨heq, himp⟩
  · rw [heq]
    refine ⟨⟨hC, hdistU, hcoverO⟩, hrel, ?_, ?_, ?_, rfl⟩
    · exact fun x dx hdx => ⟨dx, hdx, le_rfl⟩
    · omega
    · exact fun y hy => Or.inl hy
  · have hvne_u : e.1 ≠ u := by
      intro hc
      have h1 := himp du (by rw [hc]; exact hdistU)
      have h2 : du ≤ du + e.2 := le_add_of_nonneg_right hw
      linarith
    have hvne_s : e.1 ≠ s := by
      intro hc
      have h1 := himp 0 (by rw [hc]; exact hC.srcZero)
      linarith
    have hmono : ∀ x dx, st.dist x = some dx →
        ∃ dx2, (updF st.dist e.1 (some (du + e.2))) x = some dx2 ∧ dx2 ≤ dx := by
      intro x dx hdx
      by_cases hxv : x = e.1
      · subst hxv
        exact ⟨du + e.2, updF_self _ _ _, le_of_lt (himp dx hdx)⟩
      · exact ⟨dx, by rw [updF_ne _ _ _ hxv]; exact hdx, le_rfl⟩
    rw [heq]
    dsimp only
    refine ⟨⟨⟨hC.graphEq, ?_, ?_, ?_, ?_, ?_, ?_, ?_, ?_, ?_, ?_⟩, ?_, ?_⟩,
      ?_, hmono, ?_, ?_, rfl⟩
    · -- dom
      dsimp only
      intro y hy
      rcases List.mem_cons.mp hy with rfl | hy2
      · exact ⟨du + e.2, updF_self _ _ _, le_rfl⟩
      · obtain ⟨de, hde, hle⟩ := hC.dom y hy2
        by_cases hyv : y.2 = e.1
        · rw [hyv] at hde
          refine ⟨du + e.2, by rw [hyv]; exact updF_self _ _ _, ?_⟩
          exact (le_of_lt (himp de hde)).trans hle
        · exact ⟨de, by rw [updF_ne _ _ _ hyv]; exact hde, hle⟩
    · -- uniq
      dsimp only
      intro x dx hdx
      by_cases hxv : x = e.1
      · subst hxv
        rw [updF_self] at hdx
        obtain rfl : dx = du + e.2 := (Option.some.inj hdx).symm
        rw [List.countP_cons]
        have h0 : (st.heap.countP fun y => decide (y = (du + e.2, e.1))) = 0 := by
          apply List.countP_eq_zero.mpr
          intro y hy hc
          rw [decide_eq_true_eq] at hc
          obtain ⟨de, hde, hle⟩ := hC.dom y hy
          rw [hc] at hde hle
          simp only at hde hle
          have := himp de hde
          linarith
        rw [if_pos (by simp)]
        omega
      · rw [updF_ne _ _ _ hxv] at hdx
        rw [List.countP_cons]
        have hne : ¬ ((du + e.2, e.1) = (dx, x)) := by
          intro hc
          exact hxv ((Prod.mk.injEq _ _ _ _ ▸ hc).2).symm
        have h1 := hC.uniq x dx hdx
        rw [if_neg (by simpa using hne)]
        omega
    · -- sound
      dsimp only
      intro x dx hdx
      by_cases hxv : x = e.1
      · subst hxv
        rw [updF_self] at hdx
        obtain rfl : dx = du + e.2 := (Option.some.inj hdx).symm
        exact IsPath.cons (hC.sound u du hdistU) he
      · rw [updF_ne _ _ _ hxv] at hdx
        exact hC.sound x dx hdx
    · -- srcZero
      dsimp only
      rw [updF_ne _ _ _ (Ne.symm hvne_s)]
      exact hC.srcZero
    · -- nonneg
      dsimp only
      intro x dx hdx
      by_cases hxv : x = e.1
      · subst hxv
        rw [updF_self] at hdx
        obtain rfl : dx = du + e.2 := (Option.some.inj hdx).symm
        exact add_nonneg hdu0 hw
      · rw [updF_ne _ _ _ hxv] at hdx
        exact hC.nonneg x dx hdx
    · -- prevSrc
      dsimp only
      rw [updF_ne _ _ _ (Ne.symm hvne_s)]
      exact hC.prevSrc
    · -- prevDist
      dsimp only
      intro x y hxy
      by_cases hxv : x = e.1
      · subst hxv
        rw [updF_self] at hxy
        obtain rfl : y = u := (Option.some.inj hxy).symm
        refine ⟨du, du + e.2, ?_, updF_self _ _ _, le_add_of_nonneg_right hw⟩
        rw [updF_ne _ _ _ (Ne.symm hvne_u)]
        exact hdistU
      · rw [updF_ne _ _ _ hxv] at hxy
        obtain ⟨dy, dx, hy, hx, hle⟩ := hC.prevDist x y hxy
        by_cases hyv : y = e.1
        · subst hyv
          have hlt := himp dy hy
          exact ⟨du + e.2, dx, updF_self _ _ _,
            by rw [updF_ne _ _ _ hxv]; exact hx, (le_of_lt hlt).trans hle⟩
        · exact ⟨dy, dx, by rw [updF_ne _ _ _ hyv]; exact hy,
            by rw [updF_ne _ _ _ hxv]; exact hx, hle⟩
    · -- prevChain
      dsimp only
      have hnr : ∀ k, ¬ ReachIn st.prev k u e.1 := by
        intro k hk
        obtain ⟨dvv, hdvv, hlevv⟩ := reach_dist_le hC.prevDist hk du hdistU
        have h1 := himp dvv hdvv
        linarith
      have hchain_v : ∃ n, ReachIn (updF st.prev e.1 (some u)) n e.1 s := by
        obtain ⟨n0, hn0⟩ := hC.prevChain u du hdistU
        exact ⟨n0 + 1, ReachIn.step (updF_self _ _ _) (reach_avoid hn0 hnr)⟩
      intro x dx hdx
      by_cases hxv : x = e.1
      · subst hxv
        exact hchain_v
      · rw [updF_ne _ _ _ hxv] at hdx
        obtain ⟨n0, hn0⟩ := hC.prevChain x dx hdx
        exact reach_subst hn0 hchain_v
    · -- prevKeys
      dsimp only
      intro x y hxy
      by_cases hxv : x = e.1
      · subst hxv
        rw [updF_self] at hxy
        obtain rfl : y = u := (Option.some.inj hxy).symm
        exact ⟨hvK, hu⟩
      · rw [updF_ne _ _ _ hxv] at hxy
        exact hC.prevKeys x y hxy
    · -- distKeys
      dsimp only
      intro x dx hdx
      by_cases hxv : x = e.1
      · subst hxv
        exact hvK
      · rw [updF_ne _ _ _ hxv] at hdx
        exact hC.distKeys x dx hdx
    · -- distU
      dsimp only
      rw [updF_ne _ _ _ (Ne.symm hvne_u)]
      exact hdistU
    · -- coverO
      dsimp only
      intro x dx hdx hxu
      by_cases hxv : x = e.1
      · subst hxv
        rw [updF_self] at hdx
        obtain rfl : dx = du + e.2 := (Option.some.inj hdx).symm
        exact Or.inl (List.mem_cons_self _ _)
      · rw [updF_ne _ _ _ hxv] at hdx
        rcases hcoverO x dx hdx hxu with hmem | hrelx
        · exact Or.inl (List.mem_cons_of_mem _ hmem)
        · exact Or.inr (relaxed_mono hmono hrelx)
    · -- e relaxed
      dsimp only
      exact ⟨du + e.2, updF_self _ _ _, le_rfl⟩
    · -- heap length
      simp
    · -- heap superset
      dsimp only
      intro y hy
      rcases List.mem_cons.mp hy with rfl | hy2
      · exact Or.inr ⟨le_add_of_nonneg_right hw, hvne_u⟩
      · exact Or.inl hy2

theorem relaxEdge_frozen {g : Graph V} {u : V} {du : ℚ} {st : DState V} {e : V × ℚ}
    (hwf : g.WF) (hu : u ∈ g.keys) (he : e ∈ g.adj u)
    {x : V} {dx : ℚ} (hdx : st.dist x = some dx) (hxdu : dx ≤ du)
    (hall : ∀ y ∈ st.heap, dx ≤ y.1)
    (hstrict : ∀ y ∈ st.heap, y.2 = x → dx < y.1) :
    (relaxEdge u du st e).dist x = some dx ∧
    (∀ y ∈ (relaxEdge u du st e).heap, dx ≤ y.1) ∧
    (∀ y ∈ (relaxEdge u du st e).heap, y.2 = x → dx < y.1) := by
  have hw : 0 ≤ e.2 := (hwf.2 u hu e he).2
  rcases relaxEdge_split u du st e with ⟨heq, _⟩ | ⟨heq, himp⟩
  · rw [heq]
    exact ⟨hdx, hall, hstrict⟩
  · have hxv : x ≠ e.1 := by
      intro hc
      have h1 := himp dx (hc ▸ hdx)
      linarith
    rw [heq]
    dsimp only
    refine ⟨by rw [updF_ne _ _ _ hxv]; exact hdx, ?_, ?_⟩
    · intro y hy
      rcases List.mem_cons.mp hy with rfl | hy2
      · dsimp only
        linarith
      · exact hall y hy2
    · intro y hy hyx
      rcases List.mem_cons.mp hy with rfl | hy2
      · exact absurd hyx.symm hxv
      · exact hstrict y hy2 hyx

theorem relaxList_pres {g : Graph V} {s u : V} {du : ℚ}
    (hwf : g.WF) (hu : u ∈ g.keys) :
    ∀ (es : List (V × ℚ)) (st : DState V), (∀ e ∈ es, e ∈ g.adj u) →
      FoldInv g s u du st →
      FoldInv g s u du (es.foldl (relaxEdge u du) st) ∧
      (∀ e ∈ es, ∃ dv, (es.foldl (relaxEdge u du) st).dist e.1 = some dv ∧
        dv ≤ du + e.2) ∧
      (∀ x dx, st.dist x = some dx →
        ∃ dx2, (es.foldl (relaxEdge u du) st).dist x = some dx2 ∧ dx2 ≤ dx) ∧
      (es.foldl (relaxEdge u du) st).heap.length ≤ st.heap.length + es.length ∧
      (∀ y ∈ (es.foldl (relaxEdge u du) st).heap,
        y ∈ st.heap ∨ (du ≤ y.1 ∧ y.2 ≠ u)) ∧
      (es.foldl (relaxEdge u du) st).graph = st.graph := by
  intro es
  induction es with
  | nil =>
    intro st hmem hF
    refine ⟨hF, by simp, fun x dx hdx => ⟨dx, hdx, le_rfl⟩, by simp,
      fun y hy => Or.inl hy, rfl⟩
  | cons e es ih =>
    intro st hmem hF
    have he : e ∈ g.adj u := hmem e (List.mem_cons_self _ _)
    obtain ⟨hF1, hrel1, hmono1, hlen1, hsup1, hg1⟩ :=
      relaxEdge_pres hwf hu he hF
    obtain ⟨hF2, hrel2, hmono2, hlen2, hsup2, hg2⟩ :=
      ih (relaxEdge u du st e) (fun e2 he2 => hmem e2 (List.mem_cons_of_mem _ he2)) hF1
    rw [List.foldl_cons]
    refine ⟨hF2, ?_, ?_, ?_, ?_, ?_⟩
    · intro e2 he2
      rcases List.mem_cons.mp he2 with rfl | he3
      · obtain ⟨dv, hdv, hle⟩ := hrel1
        obtain ⟨dv2, hdv2, hle2⟩ := hmono2 _ _ hdv
        exact ⟨dv2, hdv2, hle2.trans hle⟩
      · exact hrel2 e2 he3
    · intro x dx hdx
      obtain ⟨dx1, hdx1, hle1⟩ := hmono1 x dx hdx
      obtain ⟨dx2, hdx2, hle2⟩ := hmono2 x dx1 hdx1
      exact ⟨dx2, hdx2, hle2.trans hle1⟩
    · simp only [List.length_cons]
      omega
    · intro y hy
      rcases hsup2 y hy with hy1 | hy1
      · exact hsup1 y hy1
      · exact Or.inr hy1
    · rw [hg2, hg1]

theorem relaxList_frozen {g : Graph V} {u : V} {du : ℚ}
    (hwf : g.WF) (hu : u ∈ g.keys) :
    ∀ (es : List (V × ℚ)) (st : DState V), (∀ e ∈ es, e ∈ g.adj u) →
      ∀ {x : V} {dx : ℚ}, st.dist x = some dx → dx ≤ du →
      (∀ y ∈ st.heap, dx ≤ y.1) → (∀ y ∈ st.heap, y.2 = x → dx < y.1) →
      (es.foldl (relaxEdge u du) st).dist x = some dx ∧
      (∀ y ∈ (es.foldl (relaxEdge u du) st).heap, dx ≤ y.1) ∧
      (∀ y ∈ (es.foldl (relaxEdge u du) st).heap, y.2 = x → dx < y.1) := by
  intro es
  induction es with
  | nil =>
    intro st hmem x dx hdx hxdu hall hstrict
    exact ⟨hdx, hall, hstrict⟩
  | cons e es ih =>
    intro st hmem x dx hdx hxdu hall hstrict
    have he : e ∈ g.adj u := hmem e (List.mem_cons_self _ _)
    obtain ⟨h1, h2, h3⟩ := relaxEdge_frozen hwf hu he hdx hxdu hall hstrict
    rw [List.foldl_cons]
    exact ih (relaxEdge u du st e)
      (fun e2 he2 => hmem e2 (List.mem_cons_of_mem _ he2)) h1 hxdu h2 h3

theorem getAdjD_mem {g : Graph V} {u : V} (hu : u ∈ g.keys) :
    g.getAdjD u = (g.adj u, g) := by
  simp [Graph.getAdjD, hu]

theorem poppedB_true_iff {st : DState V} {u : V} :
    poppedB st u = true ↔ ∃ du, st.dist u = some du ∧
      (∀ y ∈ st.heap, du ≤ y.1) ∧ (∀ y ∈ st.heap, y.2 = u → du < y.1) := by
  cases hd : st.dist u with
  | none => simp [poppedB, hd]
  | some du =>
    simp only [poppedB, hd, Bool.and_eq_true, List.all_eq_true, decide_eq_true_eq,
      Option.some.injEq]
    constructor
    · intro ⟨h1, h2⟩
      exact ⟨du, rfl, h1, h2⟩
    · intro ⟨du2, hdu2, h1, h2⟩
      subst hdu2
      exact ⟨h1, h2⟩

theorem sum_filter_le (f : V → ℕ) (p q : V → Bool) :
    ∀ (l : List V), (∀ a ∈ l, p a = true → q a = true) →
      ((l.filter p).map f).sum ≤ ((l.filter q).map f).sum := by
  intro l
  induction l with
  | nil => intro _; simp
  | cons a l ih =>
    intro h
    have hrec := ih fun b hb => h b (List.mem_cons_of_mem _ hb)
    cases hpa : p a with
    | true =>
      have hqa := h a (List.mem_cons_self _ _) hpa
      simp only [List.filter_cons, hpa, hqa, if_true, List.map_cons, List.sum_cons]
      omega
    | false =>
      cases hqa : q a with
      | true =>
        simp only [List.filter_cons, hpa, hqa]
        simp only [Bool.false_eq_true, if_false, if_true, List.map_cons, List.sum_cons]
        omega
      | false =>
        simp only [List.filter_cons, hpa, hqa]
        simp only [Bool.false_eq_true, if_false]
        exact hrec

theorem sum_filter_lt (f : V → ℕ) (p q : V → Bool) {u : V} :
    ∀ (l : List V), l.Nodup → u ∈ l → p u = true → q u = false →
      (∀ a ∈ l, q a = true → p a = true) →
      ((l.filter q).map f).sum + f u ≤ ((l.filter p).map f).sum := by
  intro l
  induction l with
  | nil => intro _ hu; simp at hu
  | cons a l ih =>
    intro hnd hu hpu hqu h
    have hrec0 : ∀ b ∈ l, q b = true → p b = true :=
      fun b hb => h b (List.mem_cons_of_mem _ hb)
    rcases List.mem_cons.mp hu with rfl | hu2
    · have hul : u ∉ l := (List.nodup_cons.mp hnd).1
      simp only [List.filter_cons, hpu, hqu, if_true, Bool.false_eq_true, if_false,
        List.map_cons, List.sum_cons]
      have := sum_filter_le f q p l hrec0
      omega
    · cases hqa : q a with
      | true =>
        have hpa := h a (List.mem_cons_self _ _) hqa
        simp only [List.filter_cons, hpa, hqa, if_true, List.map_cons, List.sum_cons]
        have := ih (List.nodup_cons.mp hnd).2 hu2 hpu hqu hrec0
        omega
      | false =>
        simp only [List.filter_cons, hqa, Bool.false_eq_true, if_false]
        have hmain := ih (List.nodup_cons.mp hnd).2 hu2 hpu hqu hrec0
        cases hpa : p a with
        | true =>
          simp only [hpa, if_true, List.map_cons, List.sum_cons]
          omega
        | false =>
          simp only [hpa, Bool.false_eq_true, if_false]
          exact hmain

theorem stepNe_eq_none {st : DState V} : stepNe st = none ↔ st.heap = [] := by
  unfold stepNe
  cases hp : popMin st.heap with
  | none => simpa using popMin_eq_none.mp hp
  | some p =>
    obtain ⟨m, rest⟩ := p
    constructor
    · intro hc
      by_cases hg : some m.1 = st.dist m.2 <;> simp [hg] at hc
    · intro hc
      rw [hc] at hp
      simp [popMin] at hp

theorem stepNe_some {st st2 : DState V} (h : stepNe st = some st2) :
    ∃ m rest, popMin st.heap = some (m, rest) ∧
      ((some m.1 = st.dist m.2 ∧ st2 = relaxAll m.2 m.1 { st with heap := rest }) ∨
       (¬ some m.1 = st.dist m.2 ∧ st2 = { st with heap := rest })) := by
  unfold stepNe at h
  cases hp : popMin st.heap with
  | none => rw [hp] at h; simp at h
  | some p =>
    obtain ⟨m, rest⟩ := p
    rw [hp] at h
    by_cases hg : some m.1 = st.dist m.2
    · simp only [hg, if_true, Option.some.injEq] at h
      exact ⟨m, rest, rfl, Or.inl ⟨hg, h.symm⟩⟩
    · simp only [hg, if_false, Option.some.injEq] at h
      exact ⟨m, rest, rfl, Or.inr ⟨hg, h.symm⟩⟩

theorem relaxAll_eq {u : V} {d : ℚ} {st : DState V} (hu : u ∈ st.graph.keys) :
    relaxAll u d st = (st.graph.adj u).foldl (relaxEdge u d) st := by
  unfold relaxAll
  rw [getAdjD_mem hu]

theorem stepNe_pres {g : Graph V} {s : V} {st st2 : DState V}
    (hwf : g.WF) (hI : Inv g s st) (hstep : stepNe st = some st2) :
    Inv g s st2 ∧ measureSt g st2 < measureSt g st := by
  obtain ⟨m, rest, hp, hcase⟩ := stepNe_some hstep
  have hlen := popMin_length hp
  have hmemrest : ∀ y ∈ rest, y ∈ st.heap := fun y hy =>
    (popMin_perm hp).mem_iff.mpr (List.mem_cons_of_mem _ hy)
  have huniq1 : ∀ x dx, st.dist x = some dx →
      ((rest.countP fun e => decide (e = (dx, x))) ≤ 1) := by
    intro x dx hdx
    have h1 := countP_popMin hp (fun e => decide (e = (dx, x)))
    have h2 := hI.uniq x dx hdx
    omega
  rcases hcase with ⟨hguard, rfl⟩ | ⟨hguard, rfl⟩
  · -- non-stale pop of the vertex m.2 at its recorded distance m.1
    have hdu : st.dist m.2 = some m.1 := hguard.symm
    have hu : m.2 ∈ g.keys := hI.distKeys m.2 m.1 hdu
    have hra : relaxAll m.2 m.1 ({ st with heap := rest } : DState V) =
        (g.adj m.2).foldl (relaxEdge m.2 m.1) { st with heap := rest } := by
      have hgg : ({ st with heap := rest } : DState V).graph = g := hI.graphEq
      have hu2 : m.2 ∈ ({ st with heap := rest } : DState V).graph.keys := by
        rw [hgg]; exact hu
      rw [relaxAll_eq hu2, hgg]
    have hF1 : FoldInv g s m.2 m.1 { st with heap := rest } := by
      refine ⟨⟨hI.graphEq, ?_, ?_, hI.sound, hI.srcZero, hI.nonneg, hI.prevSrc,
        hI.prevDist, hI.prevChain, hI.prevKeys, hI.distKeys⟩, hdu, ?_⟩
      · dsimp only
        intro y hy
        exact hI.dom y (hmemrest y hy)
      · dsimp only
        intro x dx hdx
        exact huniq1 x dx hdx
      · dsimp only
        intro x dx hdx hxu
        rcases hI.cover x dx hdx with hmem | hrel
        · refine Or.inl (mem_rest_of_ne hp hmem ?_)
          intro hc
          exact hxu (congrArg Prod.snd hc)
        · exact Or.inr hrel
    obtain ⟨hF2, hrel2, hmono2, hlen2, hsup2, hg2⟩ :=
      relaxList_pres hwf hu (g.adj m.2) { st with heap := rest } (fun e he => he) hF1
    rw [hra]
    have hpu_false : poppedB st m.2 = false := by
      by_contra hc
      simp only [Bool.not_eq_false] at hc
      rw [poppedB_true_iff] at hc
      obtain ⟨du2, hdu2, hall, hstrict⟩ := hc
      rw [hdu] at hdu2
      obtain rfl : m.1 = du2 := Option.some.inj hdu2
      exact absurd (hstrict m (popMin_mem hp) rfl) (lt_irrefl _)
    have hpu_true2 :
        poppedB ((g.adj m.2).foldl (relaxEdge m.2 m.1) { st with heap := rest }) m.2
          = true := by
      rw [poppedB_true_iff]
      refine ⟨m.1, hF2.distU, ?_, ?_⟩
      · intro y hy
        rcases hsup2 y hy with hy1 | hy1
        · exact entryLe_fst (popMin_le hp y (hmemrest y hy1))
        · exact hy1.1
      · intro y hy hyu
        rcases hsup2 y hy with hy1 | hy1
        · obtain ⟨de, hde, hle⟩ := hI.dom y (hmemrest y hy1)
          rw [hyu, hdu] at hde
          obtain rfl : m.1 = de := Option.some.inj hde
          rcases lt_or_eq_of_le hle with hlt | heq2
          · exact hlt
          · exfalso
            have hym : y = m := by
              rw [Prod.ext_iff]
              exact ⟨heq2.symm, hyu⟩
            exact not_mem_rest hp (hI.uniq m.2 m.1 hdu) (hym ▸ hy1)
        · exact absurd hyu hy1.2
    have hpop_mono : ∀ x, poppedB st x = true →
        poppedB ((g.adj m.2).foldl (relaxEdge m.2 m.1) { st with heap := rest }) x
          = true := by
      intro x hx
      rw [poppedB_true_iff] at hx ⊢
      obtain ⟨dx, hdx, hall, hstrict⟩ := hx
      have hxdu : dx ≤ m.1 := hall m (popMin_mem hp)
      obtain ⟨h1, h2, h3⟩ := relaxList_frozen hwf hu (g.adj m.2)
        { st with heap := rest } (fun e he => he) hdx hxdu
        (fun y hy => hall y (hmemrest y hy))
        (fun y hy => hstrict y (hmemrest y hy))
      exact ⟨dx, h1, h2, h3⟩
    constructor
    · refine ⟨hF2.toInvCore, ?_⟩
      intro x dx hdx
      by_cases hxu : x = m.2
      · subst hxu
        rw [hF2.distU] at hdx
        obtain rfl : m.1 = dx := Option.some.inj hdx
        exact Or.inr (fun e he => hrel2 e he)
      · exact hF2.coverO x dx hdx hxu
    · have hPu : (fun a => ! poppedB st a) m.2 = true := by
        simp only [hpu_false]; rfl
      have hQu : (fun a =>
          ! poppedB ((g.adj m.2).foldl (relaxEdge m.2 m.1) { st with heap := rest }) a)
          m.2 = false := by
        simp only [hpu_true2]; rfl
      have hmono_f : ∀ a ∈ g.keys,
          (fun a => ! poppedB
            ((g.adj m.2).foldl (relaxEdge m.2 m.1) { st with heap := rest }) a) a
            = true →
          (fun a => ! poppedB st a) a = true := by
        intro a _ hqa
        cases hb : poppedB st a with
        | false => simp [hb]
        | true => simp [hpop_mono a hb] at hqa
      have hsum := sum_filter_lt (fun a => (g.adj a).length)
        (fun a => ! poppedB st a)
        (fun a => ! poppedB ((g.adj m.2).foldl (relaxEdge m.2 m.1)
          { st with heap := rest }) a)
        g.keys hwf.1 hu hPu hQu hmono_f
      dsimp only at hlen2 hsum
      simp only [measureSt]
      omega
  · -- stale entry skipped
    constructor
    · refine ⟨⟨hI.graphEq, ?_, ?_, hI.sound, hI.srcZero, hI.nonneg, hI.prevSrc,
        hI.prevDist, hI.prevChain, hI.prevKeys, hI.distKeys⟩, ?_⟩
      · dsimp only
        intro y hy
        exact hI.dom y (hmemrest y hy)
      · dsimp only
        intro x dx hdx
        exact huniq1 x dx hdx
      · dsimp only
        intro x dx hdx
        rcases hI.cover x dx hdx with hmem | hrel
        · refine Or.inl (mem_rest_of_ne hp hmem ?_)
          intro hc
          apply hguard
          have h1 : m.1 = dx := (congrArg Prod.fst hc).symm
          have h2 : m.2 = x := (congrArg Prod.snd hc).symm
          rw [h1, h2, hdx]
        · exact Or.inr hrel
    · have hpop_mono : ∀ x, poppedB st x = true →
          poppedB ({ st with heap := rest } : DState V) x = true := by
        intro x hx
        rw [poppedB_true_iff] at hx ⊢
        obtain ⟨dx, hdx, hall, hstrict⟩ := hx
        exact ⟨dx, hdx, fun y hy => hall y (hmemrest y hy),
          fun y hy => hstrict y (hmemrest y hy)⟩
      have hmono_f : ∀ a ∈ g.keys,
          (! poppedB ({ st with heap := rest } : DState V) a) = true →
          (! poppedB st a) = true := by
        intro a _ hqa
        cases hb : poppedB st a with
        | false => simp [hb]
        | true => simp [hpop_mono a hb] at hqa
      have hsum := sum_filter_le (fun a => (g.adj a).length)
        (fun a => ! poppedB ({ st with heap := rest } : DState V) a)
        (fun a => ! poppedB st a) g.keys hmono_f
      simp only [measureSt]
      omega

theorem loopN_inv {g : Graph V} {s : V} (hwf : g.WF) :
    ∀ (n : ℕ) (st : DState V), Inv g s st → Inv g s (loopN n st) := by
  intro n
  induction n with
  | zero => intro st h; exact h
  | succ n ih =>
    intro st h
    simp only [loopN]
    cases hs : stepNe st with
    | none => exact h
    | some st1 => exact ih st1 (stepNe_pres hwf h hs).1

theorem loopN_empty {g : Graph V} {s : V} (hwf : g.WF) :
    ∀ (n : ℕ) (st : DState V), Inv g s st → measureSt g st < n →
      (loopN n st).heap = [] := by
  intro n
  induction n with
  | zero => intro st _ h; omega
  | succ n ih =>
    intro st hI hm
    simp only [loopN]
    cases hs : stepNe st with
    | none => exact stepNe_eq_none.mp hs
    | some st1 =>
      obtain ⟨hI1, hlt⟩ := stepNe_pres hwf hI hs
      exact ih st1 hI1 (by omega)

theorem initState_dist {g : Graph V} {s : V} :
    ∀ u du, (initState g s).dist u = some du → u = s ∧ du = 0 := by
  intro u du hdu
  by_cases hus : u = s
  · refine ⟨hus, ?_⟩
    have h1 : (initState g s).dist u = some 0 := by
      show updF (fun _ => none) s (some 0) u = some 0
      rw [hus]
      exact updF_self _ _ _
    rw [h1] at hdu
    exact (Option.some.inj hdu).symm
  · have h1 : (initState g s).dist u = none := by
      show updF (fun _ => none) s (some 0) u = none
      exact updF_ne _ _ _ hus
    rw [h1] at hdu
    exact absurd hdu (by simp)

theorem init_inv {g : Graph V} {s : V} (hwf : g.WF) (hs : s ∈ g.keys) :
    Inv g s (initState g s) := by
  have hsz : (initState g s).dist s = some 0 := by
    show updF (fun _ => none) s (some 0) s = some 0
    exact updF_self _ _ _
  refine ⟨⟨rfl, ?_, ?_, ?_, hsz, ?_, rfl, ?_, ?_, ?_, ?_⟩, ?_⟩
  · intro y hy
    simp only [initState, List.mem_singleton] at hy
    subst hy
    exact ⟨0, hsz, le_rfl⟩
  · intro u du hdu
    obtain ⟨rfl, rfl⟩ := initState_dist u du hdu
    simp [initState]
  · intro u du hdu
    obtain ⟨rfl, rfl⟩ := initState_dist u du hdu
    exact IsPath.nil u hs
  · intro u du hdu
    obtain ⟨rfl, rfl⟩ := initState_dist u du hdu
    exact le_rfl
  · intro v u hvu
    exact absurd hvu (by simp [initState])
  · intro v dv hdv
    obtain ⟨rfl, rfl⟩ := initState_dist v dv hdv
    exact ⟨0, ReachIn.refl _⟩
  · intro v u hvu
    exact absurd hvu (by simp [initState])
  · intro v dv hdv
    obtain ⟨rfl, rfl⟩ := initState_dist v dv hdv
    exact hs
  · intro u du hdu
    obtain ⟨rfl, rfl⟩ := initState_dist u du hdu
    exact Or.inl (by simp [initState])

theorem measure_init {g : Graph V} (s : V) :
    measureSt g (initState g s) ≤ g.totalDeg + 1 := by
  have h1 := sum_filter_le (fun u => (g.adj u).length)
    (fun u => ! poppedB (initState g s) u) (fun _ => true) g.keys
    (fun a _ _ => rfl)
  rw [List.filter_true] at h1
  have h2 : (initState g s).heap.length = 1 := rfl
  simp only [measureSt, Graph.totalDeg]
  omega

theorem dijkstra_ok {g : Graph V} {s : V} (hwf : g.WF) (hs : s ∈ g.keys) :
    ∃ st, g.dijkstra s = .ok st ∧ Inv g s st ∧ st.heap = [] := by
  refine ⟨loopN (g.totalDeg + 2) (initState g s), ?_, ?_, ?_⟩
  · simp [Graph.dijkstra, hs]
  · exact loopN_inv hwf _ _ (init_inv hwf hs)
  · refine loopN_empty hwf _ _ (init_inv hwf hs) ?_
    have := measure_init (g := g) s
    omega

theorem dijkstra_run {g : Graph V} {s : V} {st : DState V}
    (hwf : g.WF) (hrun : g.dijkstra s = .ok st) :
    Inv g s st ∧ st.heap = [] ∧ s ∈ g.keys := by
  have hs : s ∈ g.keys := by
    by_contra hc
    simp [Graph.dijkstra, hc] at hrun
  obtain ⟨st2, h1, h2, h3⟩ := dijkstra_ok hwf hs
  rw [hrun] at h1
  obtain rfl : st = st2 := by injection h1
  exact ⟨h2, h3, hs⟩

theorem final_relaxed {g : Graph V} {s : V} {st : DState V}
    (hI : Inv g s st) (hempty : st.heap = []) :
    ∀ u du, st.dist u = some du → Relaxed g st.dist u du := by
  intro u du hdu
  rcases hI.cover u du hdu with hmem | hrel
  · rw [hempty] at hmem
    exact absurd hmem (by simp)
  · exact hrel

theorem final_le_path {g : Graph V} {s : V} {st : DState V}
    (hI : Inv g s st) (hempty : st.heap = []) :
    ∀ {v : V} {c : ℚ}, IsPath g s v c → ∃ dv, st.dist v = some dv ∧ dv ≤ c := by
  intro v c hp
  induction hp with
  | nil hu => exact ⟨0, hI.srcZero, le_rfl⟩
  | cons hp he ih =>
    obtain ⟨dv, hdv, hle⟩ := ih
    obtain ⟨dx, hdx, hlex⟩ := final_relaxed hI hempty _ dv hdv _ he
    exact ⟨dx, hdx, hlex.trans (add_le_add_right hle _)⟩

theorem dist_char {g : Graph V} {s : V} {st : DState V}
    (hwf : g.WF) (hrun : g.dijkstra s = .ok st) (v : V) :
    (st.dist v = none ↔ ¬ ∃ c, IsPath g s v c) ∧
    (∀ c, st.dist v = some c → IsPath g s v c ∧ ∀ c2, IsPath g s v c2 → c ≤ c2) := by
  obtain ⟨hI, hempty, hs⟩ := dijkstra_run hwf hrun
  constructor
  · constructor
    · rintro hnone ⟨c, hc⟩
      obtain ⟨dv, hdv, _⟩ := final_le_path hI hempty hc
      rw [hnone] at hdv
      exact absurd hdv (by simp)
    · intro hno
      cases hd : st.dist v with
      | none => rfl
      | some dv => exact absurd ⟨dv, hI.sound v dv hd⟩ hno
  · intro c hc
    refine ⟨hI.sound v c hc, ?_⟩
    intro c2 hc2
    obtain ⟨dv, hdv, hle⟩ := final_le_path hI hempty hc2
    rw [hc] at hdv
    obtain rfl : c = dv := Option.some.inj hdv
    exact hle

theorem stepGt_eq {st : DState V}
    (hdom : ∀ e ∈ st.heap, ∃ de, st.dist e.2 = some de ∧ de ≤ e.1) :
    stepGt st = stepNe st := by
  unfold stepGt stepNe
  cases hp : popMin st.heap with
  | none => rfl
  | some p =>
    obtain ⟨m, rest⟩ := p
    obtain ⟨de, hde, hle⟩ := hdom m (popMin_mem hp)
    rcases lt_or_eq_of_le hle with hlt | heq
    · have hg1 : gtD m.1 (st.dist m.2) = true := by
        rw [hde]
        simpa [gtD] using hlt
      have hg2 : ¬ (some m.1 = st.dist m.2) := by
        rw [hde]
        intro hc
        exact absurd (Option.some.inj hc).symm (ne_of_lt hlt)
      simp [hg1, hg2]
    · subst heq
      have hg1 : gtD m.1 (st.dist m.2) = false := by
        rw [hde]
        simp [gtD]
      have hg2 : some m.1 = st.dist m.2 := hde.symm
      simp [hg1, hg2]

theorem loopGtN_eq {g : Graph V} {s : V} (hwf : g.WF) :
    ∀ (n : ℕ) (st : DState V), Inv g s st → loopGtN n st = loopN n st := by
  intro n
  induction n with
  | zero => intro st _; rfl
  | succ n ih =>
    intro st hI
    simp only [loopGtN, loopN, stepGt_eq hI.dom]
    cases hs : stepNe st with
    | none => rfl
    | some st1 => exact ih st1 (stepNe_pres hwf hI hs).1

theorem dijkstraGt_eq {g : Graph V} {s : V} (hwf : g.WF) :
    g.dijkstraGt s = g.dijkstra s := by
  by_cases hs : s ∈ g.keys
  · simp only [Graph.dijkstraGt, Graph.dijkstra, hs, if_true]
    rw [loopGtN_eq hwf _ _ (init_inv hwf hs)]
  · simp [Graph.dijkstraGt, Graph.dijkstra, hs]

theorem run_prev_keys {g : Graph V} {s : V} {st : DState V}
    (hwf : g.WF) (hrun : g.dijkstra s = .ok st) :
    ∀ x y, st.prev x = some y → y ∈ g.keys := by
  obtain ⟨hI, _, _⟩ := dijkstra_run hwf hrun
  exact fun x y hxy => (hI.prevKeys x y hxy).2

theorem reconstruct_head_of_run {g : Graph V} {s : V} {st : DState V} {v : V} {dv : ℚ}
    (hwf : g.WF) (hrun : g.dijkstra s = .ok st) (hdv : st.dist v = some dv) :
    (reconstructPath g.keys st.prev v).head? = some s ∧
    ∃ n, n + 1 ≤ g.keys.length ∧ ReachIn st.prev n v s := by
  obtain ⟨hI, hempty, hs⟩ := dijkstra_run hwf hrun
  obtain ⟨n, hn⟩ := hI.prevChain v dv hdv
  have hps : st.prev s = none := hI.prevSrc
  have hvK : v ∈ g.keys := hI.distKeys v dv hdv
  have hnd := walkBack_nodup hps n v hn (n + 1) (by omega)
  have hsub : ∀ x ∈ walkBackAux st.prev (n + 1) (some v), x ∈ g.keys := by
    intro x hx
    obtain ⟨j, k, hjk, hj, hk⟩ := mem_walkBack_reach hps n v hn (n + 1) (by omega) x hx
    exact reach_mem_keys (fun a b hab => (hI.prevKeys a b hab).2) hvK hj
  have hlenb : n + 1 ≤ g.keys.length := by
    have h1 := (List.Nodup.subperm hnd hsub).length_le
    rw [(walkBack_getLast_length hps n v hn (n + 1) (by omega)).2] at h1
    exact h1
  have hF : n < g.keys.length + 1 := by omega
  obtain ⟨hlast, _⟩ := walkBack_getLast_length hps n v hn (g.keys.length + 1) hF
  refine ⟨?_, n, hlenb, hn⟩
  rw [reconstructPath, if_pos hvK, List.head?_reverse]
  exact hlast

theorem getAdjD_clean {g : Graph V} {u : V} (hcl : g.Clean) :
    (g.getAdjD u).1 = g.adj u ∧
    (∀ x, (g.getAdjD u).2.adj x = g.adj x) ∧
    (∀ x, x ∈ (g.getAdjD u).2.keys ↔ (x ∈ g.keys ∨ x = u)) ∧
    (g.getAdjD u).2.Clean ∧
    (g.keys.Nodup → (g.getAdjD u).2.keys.Nodup) ∧
    u ∈ (g.getAdjD u).2.keys := by
  by_cases hu : u ∈ g.keys
  · rw [getAdjD_mem hu]
    refine ⟨rfl, fun x => rfl, ?_, hcl, fun h => h, hu⟩
    intro x
    constructor
    · exact fun h => Or.inl h
    · rintro (h | rfl)
      · exact h
      · exact hu
  · simp only [Graph.getAdjD, hu, if_false]
    refine ⟨(hcl u hu).symm, ?_, ?_, ?_, ?_, by simp⟩
    · dsimp only
      intro x
      by_cases hx : x = u
      · subst hx
        rw [updF_self]
        exact (hcl x hu).symm
      · rw [updF_ne _ _ _ hx]
    · dsimp only
      intro x
      simp [List.mem_append]
    · intro x hx
      dsimp only at hx ⊢
      simp only [List.mem_append, List.mem_singleton] at hx
      push_neg at hx
      rw [updF_ne _ _ _ hx.2]
      exact hcl x hx.1
    · intro hnd
      simp [List.nodup_append, hnd, hu]

theorem appendAdj_spec {h : Graph V} {k : V} {e : V × ℚ} {l : List (V × ℚ)}
    (hl : l = h.adj k) (hk : k ∈ h.keys) (hcl : h.Clean) :
    (∀ x, ({ keys := h.keys, adj := updF h.adj k (l ++ [e]) } : Graph V).adj x
        = h.adj x ++ (if x = k then [e] else [])) ∧
    ({ keys := h.keys, adj := updF h.adj k (l ++ [e]) } : Graph V).Clean := by
  subst hl
  constructor
  · intro x
    dsimp only
    by_cases hx : x = k
    · subst hx
      rw [updF_self, if_pos rfl]
    · rw [updF_ne _ _ _ hx, if_neg hx]
      simp
  · intro x hx
    dsimp only at hx ⊢
    have hxk : x ≠ k := fun hc => hx (hc ▸ hk)
    rw [updF_ne _ _ _ hxk]
    exact hcl x hx

theorem appendAdjD_spec {h : Graph V} {k : V} {e : V × ℚ}
    (hk : k ∈ h.keys) (hcl : h.Clean) :
    (∀ x, ({ keys := (h.getAdjD k).2.keys,
             adj := updF (h.getAdjD k).2.adj k ((h.getAdjD k).1 ++ [e]) } : Graph V).adj x
        = h.adj x ++ (if x = k then [e] else [])) ∧
    ({ keys := (h.getAdjD k).2.keys,
       adj := updF (h.getAdjD k).2.adj k ((h.getAdjD k).1 ++ [e]) } : Graph V).Clean ∧
    (∀ x, x ∈ (h.getAdjD k).2.keys ↔ x ∈ h.keys) ∧
    (h.keys.Nodup → (h.getAdjD k).2.keys.Nodup) := by
  rw [getAdjD_mem hk]
  dsimp only
  obtain ⟨h1, h2⟩ := appendAdj_spec (l := h.adj k) rfl hk hcl
  exact ⟨h1, h2, fun x => Iff.rfl, fun hnd => hnd⟩

theorem addEdge_spec {g : Graph V} {u v : V} {w : ℚ} (b : Bool)
    (hw : 0 ≤ w) (hcl : g.Clean) :
    ∃ g3, g.addEdge u v w b = Except.ok g3 ∧
      (∀ x, x ∈ g3.keys ↔ (x ∈ g.keys ∨ x = u ∨ x = v)) ∧
      (∀ x, g3.adj x = g.adj x ++
        ((if x = u then [(v, w)] else []) ++
         (if b = true ∧ x = v then [(u, w)] else []))) ∧
      g3.Clean ∧ (g.keys.Nodup → g3.keys.Nodup) := by
  have hnlt : ¬ (w < 0) := not_lt.mpr hw
  obtain ⟨hA1, hA2, hA3, hA4, hA5, hA6⟩ := getAdjD_clean (g := g) (u := u) hcl
  have hl1 : (g.getAdjD u).1 = (g.getAdjD u).2.adj u := hA1.trans (hA2 u).symm
  obtain ⟨hB2, hB3⟩ := appendAdj_spec (e := (v, w)) hl1 hA6 hA4
  set G1 : Graph V :=
    { keys := (g.getAdjD u).2.keys,
      adj := updF (g.getAdjD u).2.adj u ((g.getAdjD u).1 ++ [(v, w)]) } with hG1
  have hB2g : ∀ x, G1.adj x = g.adj x ++ (if x = u then [(v, w)] else []) := by
    intro x
    rw [hB2 x, hA2 x]
  have hKeys1 : ∀ x, x ∈ G1.keys ↔ (x ∈ g.keys ∨ x = u) := by
    intro x
    rw [hG1]
    exact hA3 x
  have hNd1 : g.keys.Nodup → G1.keys.Nodup := by
    intro hnd
    rw [hG1]
    exact hA5 hnd
  have hG2eq : (G1.getAdjD v).2 =
      (if v ∈ G1.keys then G1
       else { keys := G1.keys ++ [v], adj := updF G1.adj v [] }) := by
    unfold Graph.getAdjD
    rw [apply_ite Prod.snd]
  obtain ⟨hC1, hC2, hC3, hC4, hC5, hC6⟩ := getAdjD_clean (g := G1) (u := v) hB3
  have hC2g : ∀ x, (G1.getAdjD v).2.adj x =
      g.adj x ++ (if x = u then [(v, w)] else []) :=
    fun x => (hC2 x).trans (hB2g x)
  have hKeys2 : ∀ x, x ∈ (G1.getAdjD v).2.keys ↔ (x ∈ g.keys ∨ x = u ∨ x = v) := by
    intro x
    rw [hC3 x, hKeys1 x]
    tauto
  have hNd2 : g.keys.Nodup → (G1.getAdjD v).2.keys.Nodup := fun hnd => hC5 (hNd1 hnd)
  have heq0 : g.addEdge u v w b = Except.ok
      (if b then
        { keys := ((G1.getAdjD v).2.getAdjD v).2.keys,
          adj := updF ((G1.getAdjD v).2.getAdjD v).2.adj v
            (((G1.getAdjD v).2.getAdjD v).1 ++ [(u, w)]) }
      else (G1.getAdjD v).2) := by
    unfold Graph.addEdge
    rw [if_neg hnlt, hG2eq]
  cases b with
  | false =>
    refine ⟨(G1.getAdjD v).2, heq0, hKeys2, ?_, hC4, hNd2⟩
    intro x
    rw [hC2g x]
    simp
  | true =>
    simp only [eq_self_iff_true, if_true] at heq0
    have hv2 : v ∈ (G1.getAdjD v).2.keys := hC6
    obtain ⟨hD2, hD3, hD4, hD5⟩ :=
      appendAdjD_spec (h := (G1.getAdjD v).2) (k := v) (e := (u, w)) hv2 hC4
    refine ⟨_, heq0, ?_, ?_, hD3, ?_⟩
    · intro x
      exact (hD4 x).trans (hKeys2 x)
    · intro x
      rw [hD2 x, hC2g x]
      simp only [eq_self_iff_true, true_and]
      rw [List.append_assoc]
    · intro hnd
      exact hD5 (hNd2 hnd)

theorem ok_inj {α : Type} {a b : α} (h : (Except.ok a : Except String α) = Except.ok b) :
    a = b := by
  injection h

theorem foldlM_cons_ok {F : Graph V → (V × V × ℚ) → Except String (Graph V)}
    {g k : Graph V} {e : V × V × ℚ} {es : List (V × V × ℚ)}
    (h : F g e = .ok k) : (e :: es).foldlM F g = es.foldlM F k := by
  have h0 : (e :: es).foldlM F g = F g e >>= fun b2 => es.foldlM F b2 := rfl
  rw [h0, h]
  rfl

theorem GEquiv_refl (g : Graph V) : GEquiv g g :=
  ⟨fun _ => Iff.rfl, fun _ => List.Perm.refl _⟩

theorem GEquiv_trans {a b c : Graph V} (h1 : GEquiv a b) (h2 : GEquiv b c) :
    GEquiv a c :=
  ⟨fun x => (h1.1 x).trans (h2.1 x), fun u => (h1.2 u).trans (h2.2 u)⟩

theorem addEdge_good {g : Graph V} {u v : V} {w : ℚ} (b : Bool)
    (hw : 0 ≤ w) (hg : Good g) :
    ∃ g2, g.addEdge u v w b = Except.ok g2 ∧ Good g2 ∧
      (∀ x, x ∈ g2.keys ↔ (x ∈ g.keys ∨ x = u ∨ x = v)) ∧
      (∀ x, g2.adj x = g.adj x ++
        ((if x = u then [(v, w)] else []) ++
         (if b = true ∧ x = v then [(u, w)] else []))) := by
  obtain ⟨g2, heq, hkeys, hadj, hcl2, hnd2⟩ := addEdge_spec b hw hg.1
  refine ⟨g2, heq, ⟨hcl2, hnd2 hg.2.1, ?_⟩, hkeys, hadj⟩
  intro x hx e he
  rw [hadj x] at he
  rcases List.mem_append.mp he with he1 | he1
  · by_cases hxg : x ∈ g.keys
    · obtain ⟨h1, h2⟩ := hg.2.2 x hxg e he1
      exact ⟨(hkeys e.1).mpr (Or.inl h1), h2⟩
    · rw [hg.1 x hxg] at he1
      exact absurd he1 (by simp)
  · rcases List.mem_append.mp he1 with he2 | he2
    · by_cases hxu : x = u
      · rw [if_pos hxu] at he2
        simp only [List.mem_singleton] at he2
        subst he2
        exact ⟨(hkeys v).mpr (Or.inr (Or.inr rfl)), hw⟩
      · rw [if_neg hxu] at he2
        exact absurd he2 (by simp)
    · by_cases hxv : b = true ∧ x = v
      · rw [if_pos hxv] at he2
        simp only [List.mem_singleton] at he2
        subst he2
        exact ⟨(hkeys u).mpr (Or.inr (Or.inl rfl)), hw⟩
      · rw [if_neg hxv] at he2
        exact absurd he2 (by simp)

theorem addEdge_congr {g1 g2 : Graph V} {u v : V} {w : ℚ} (b : Bool)
    (hw : 0 ≤ w) (hg1 : Good g1) (hg2 : Good g2) (he : GEquiv g1 g2)
    {k1 k2 : Graph V} (e1 : g1.addEdge u v w b = .ok k1)
    (e2 : g2.addEdge u v w b = .ok k2) : GEquiv k1 k2 := by
  obtain ⟨k1x, heq1, _, hkeys1, hadj1⟩ := addEdge_good b hw hg1
  rw [e1] at heq1
  obtain rfl : k1 = k1x := ok_inj heq1
  obtain ⟨k2x, heq2, _, hkeys2, hadj2⟩ := addEdge_good b hw hg2
  rw [e2] at heq2
  obtain rfl : k2 = k2x := ok_inj heq2
  constructor
  · intro x
    rw [hkeys1 x, hkeys2 x, he.1 x]
  · intro x
    rw [hadj1 x, hadj2 x]
    exact (he.2 x).append (List.Perm.refl _)

theorem addEdge_swap (und : Bool) {g : Graph V} {u1 v1 u2 v2 : V} {w1 w2 : ℚ}
    (hw1 : 0 ≤ w1) (hw2 : 0 ≤ w2) (hg : Good g)
    {ga gab gb gba : Graph V}
    (ha : g.addEdge u1 v1 w1 und = .ok ga)
    (hab : ga.addEdge u2 v2 w2 und = .ok gab)
    (hb : g.addEdge u2 v2 w2 und = .ok gb)
    (hba : gb.addEdge u1 v1 w1 und = .ok gba) :
    GEquiv gab gba := by
  obtain ⟨ga2, ea, hga, hka, hadja⟩ := addEdge_good und hw1 hg
  rw [ha] at ea
  obtain rfl : ga = ga2 := ok_inj ea
  obtain ⟨gab2, eab, hgab, hkab, hadjab⟩ := addEdge_good und hw2 hga
  rw [hab] at eab
  obtain rfl : gab = gab2 := ok_inj eab
  obtain ⟨gb2, eb, hgb, hkb, hadjb⟩ := addEdge_good und hw2 hg
  rw [hb] at eb
  obtain rfl : gb = gb2 := ok_inj eb
  obtain ⟨gba2, eba, hgba, hkba, hadjba⟩ := addEdge_good und hw1 hgb
  rw [hba] at eba
  obtain rfl : gba = gba2 := ok_inj eba
  constructor
  · intro x
    rw [hkab x, hka x, hkba x, hkb x]
    tauto
  · intro x
    rw [hadjab x, hadja x, hadjba x, hadjb x]
    have hgen : ∀ (a b c : List (V × ℚ)), (a ++ b ++ c).Perm (a ++ c ++ b) := by
      intro a b c
      rw [List.append_assoc, List.append_assoc]
      exact List.Perm.append_left _ List.perm_append_comm
    exact hgen _ _ _

theorem buildFrom_ok (und : Bool) : ∀ (es : List (V × V × ℚ)) (g : Graph V),
    (∀ e ∈ es, 0 ≤ e.2.2) → Good g →
    ∃ h, es.foldlM (fun g e => g.addEdge e.1 e.2.1 e.2.2 und) g = .ok h ∧ Good h := by
  intro es
  induction es with
  | nil => intro g _ hg; exact ⟨g, rfl, hg⟩
  | cons e es ih =>
    intro g hnn hg
    obtain ⟨g1, heq, hg1, _, _⟩ := addEdge_good und (hnn e (List.mem_cons_self _ _)) hg
    obtain ⟨h, hfold, hh⟩ := ih g1 (fun x hx => hnn x (List.mem_cons_of_mem _ hx)) hg1
    refine ⟨h, ?_, hh⟩
    rw [foldlM_cons_ok heq]
    exact hfold

theorem buildFrom_congr (und : Bool) : ∀ (es : List (V × V × ℚ)),
    (∀ e ∈ es, 0 ≤ e.2.2) →
    ∀ {g1 g2 : Graph V}, Good g1 → Good g2 → GEquiv g1 g2 →
    ∀ {h1 h2 : Graph V},
      es.foldlM (fun g e => g.addEdge e.1 e.2.1 e.2.2 und) g1 = .ok h1 →
      es.foldlM (fun g e => g.addEdge e.1 e.2.1 e.2.2 und) g2 = .ok h2 →
      GEquiv h1 h2 := by
  intro es
  induction es with
  | nil =>
    intro _ g1 g2 _ _ he h1 h2 f1 f2
    have f1b : Except.ok g1 = Except.ok h1 := f1
    have f2b : Except.ok g2 = Except.ok h2 := f2
    obtain rfl := ok_inj f1b
    obtain rfl := ok_inj f2b
    exact he
  | cons e es ih =>
    intro hnn g1 g2 hg1 hg2 he h1 h2 f1 f2
    have hwe : 0 ≤ e.2.2 := hnn e (List.mem_cons_self _ _)
    obtain ⟨k1, e1, hk1, _, _⟩ := addEdge_good und hwe hg1
    obtain ⟨k2, e2, hk2, _, _⟩ := addEdge_good und hwe hg2
    rw [foldlM_cons_ok e1] at f1
    rw [foldlM_cons_ok e2] at f2
    exact ih (fun x hx => hnn x (List.mem_cons_of_mem _ hx)) hk1 hk2
      (addEdge_congr und hwe hg1 hg2 he e1 e2) f1 f2

theorem buildFrom_perm (und : Bool) : ∀ {es1 es2 : List (V × V × ℚ)}, es1.Perm es2 →
    (∀ e ∈ es1, 0 ≤ e.2.2) →
    ∀ {g1 g2 : Graph V}, Good g1 → Good g2 → GEquiv g1 g2 →
    ∀ {h1 h2 : Graph V},
      es1.foldlM (fun g e => g.addEdge e.1 e.2.1 e.2.2 und) g1 = .ok h1 →
      es2.foldlM (fun g e => g.addEdge e.1 e.2.1 e.2.2 und) g2 = .ok h2 →
      GEquiv h1 h2 := by
  intro es1 es2 hperm
  induction hperm with
  | nil =>
    intro _ g1 g2 _ _ he h1 h2 f1 f2
    have f1b : Except.ok g1 = Except.ok h1 := f1
    have f2b : Except.ok g2 = Except.ok h2 := f2
    obtain rfl := ok_inj f1b
    obtain rfl := ok_inj f2b
    exact he
  | cons e hsub ih =>
    intro hnn g1 g2 hg1 hg2 he h1 h2 f1 f2
    have hwe : 0 ≤ e.2.2 := hnn e (List.mem_cons_self _ _)
    obtain ⟨k1, e1, hk1, _, _⟩ := addEdge_good und hwe hg1
    obtain ⟨k2, e2, hk2, _, _⟩ := addEdge_good und hwe hg2
    rw [foldlM_cons_ok e1] at f1
    rw [foldlM_cons_ok e2] at f2
    exact ih (fun x hx => hnn x (List.mem_cons_of_mem _ hx)) hk1 hk2
      (addEdge_congr und hwe hg1 hg2 he e1 e2) f1 f2
  | swap ex ey l =>
    intro hnn g1 g2 hg1 hg2 he h1 h2 f1 f2
    have hwy : 0 ≤ ey.2.2 := hnn ey (List.mem_cons_self _ _)
    have hwx : 0 ≤ ex.2.2 := hnn ex (List.mem_cons_of_mem _ (List.mem_cons_self _ _))
    obtain ⟨m1, em1, hm1, _, _⟩ := addEdge_good und hwy hg1
    obtain ⟨m12, em12, hm12, _, _⟩ := addEdge_good und hwx hm1
    rw [foldlM_cons_ok em1, foldlM_cons_ok em12] at f1
    obtain ⟨n1, en1, hn1, _, _⟩ := addEdge_good und hwx hg2
    obtain ⟨n12, en12, hn12, _, _⟩ := addEdge_good und hwy hn1
    rw [foldlM_cons_ok en1, foldlM_cons_ok en12] at f2
    obtain ⟨p1, ep1, hp1, _, _⟩ := addEdge_good und hwx hg1
    obtain ⟨p12, ep12, hp12, _, _⟩ := addEdge_good und hwy hp1
    have hswap : GEquiv m12 p12 := addEdge_swap und hwy hwx hg1 em1 em12 ep1 ep12
    have hcong1 : GEquiv p1 n1 := addEdge_congr und hwx hg1 hg2 he ep1 en1
    have hcong2 : GEquiv p12 n12 := addEdge_congr und hwy hp1 hn1 hcong1 ep12 en12
    exact buildFrom_congr und l (fun x hx => hnn x
        (List.mem_cons_of_mem _ (List.mem_cons_of_mem _ hx)))
      hm12 hn12 (GEquiv_trans hswap hcong2) f1 f2
  | trans h12 h23 ih12 ih23 =>
    intro hnn g1 g2 hg1 hg2 he h1 h2 f1 f2
    rename_i l1 l2 l3
    have hnn2 : ∀ e ∈ l2, 0 ≤ e.2.2 := fun x hx => hnn x (h12.mem_iff.mpr hx)
    obtain ⟨hm, fm, hgm⟩ := buildFrom_ok und l2 g1 hnn2 hg1
    have ge1 := ih12 hnn hg1 hg1 (GEquiv_refl g1) f1 fm
    have ge2 := ih23 hnn2 hg1 hg2 he fm f2
    exact GEquiv_trans ge1 ge2

theorem GEquiv_symm {a b : Graph V} (h : GEquiv a b) : GEquiv b a :=
  ⟨fun x => (h.1 x).symm, fun u => (h.2 u).symm⟩

theorem isPath_equiv {g1 g2 : Graph V} (he : GEquiv g1 g2) :
    ∀ {u v : V} {c : ℚ}, IsPath g1 u v c → IsPath g2 u v c := by
  intro u v c h
  induction h with
  | nil hu => exact IsPath.nil _ ((he.1 _).mp hu)
  | cons hp hedge ih => exact IsPath.cons ih ((he.2 _).mem_iff.mp hedge)

theorem empty_good : Good (Graph.empty : Graph V) := by
  refine ⟨fun x _ => rfl, List.nodup_nil, ?_⟩
  intro u hu
  exact absurd hu (List.not_mem_nil u)

theorem buildGraph_good {es : List (V × V × ℚ)} {und : Bool} {g : Graph V}
    (hnn : ∀ e ∈ es, 0 ≤ e.2.2) (h : buildGraph es und = .ok g) : Good g := by
  obtain ⟨h2, hf, hg⟩ := buildFrom_ok und es Graph.empty hnn empty_good
  have h3 : Except.ok g = Except.ok h2 := h.symm.trans hf
  obtain rfl := ok_inj h3
  exact hg

/-- Claim C1: for every well-formed graph (non-negative edge weights) and
every source known to the graph, the distance map returned by
`Graph.dijkstra` maps each vertex `v` to the minimum, over all paths from the
source to `v`, of the sum of edge weights along the path, and maps `v` to
infinity (`none`) exactly when `v` is unreachable from the source. -/
theorem dijkstra_computes_shortest_distances {V : Type} [DecidableEq V] [LinearOrder V]
    (g : Graph V) (s : V) (st : DState V) (hwf : g.WF)
    (hrun : g.dijkstra s = .ok st) (v : V) :
    (∀ c, st.dist v = some c → IsPath g s v c ∧ ∀ c2, IsPath g s v c2 → c ≤ c2) ∧
    (st.dist v = none ↔ ¬ ∃ c, IsPath g s v c) :=
  ⟨(dist_char hwf hrun v).2, (dist_char hwf hrun v).1⟩

set_option maxHeartbeats 2000000 in
/-- Witness for claim C1, instantiated on the demo graph at vertex `E`. -/
theorem dijkstra_computes_shortest_distances_witness :
    demoG.WF ∧ demoG.dijkstra "A" = .ok demoSt ∧
    ((∀ c, demoSt.dist "E" = some c → IsPath demoG "A" "E" c ∧
        ∀ c2, IsPath demoG "A" "E" c2 → c ≤ c2) ∧
     (demoSt.dist "E" = none ↔ ¬ ∃ c, IsPath demoG "A" "E" c)) :=
  ⟨by with_unfolding_all decide, by with_unfolding_all rfl,
    dijkstra_computes_shortest_distances demoG "A" demoSt
      (by with_unfolding_all decide) (by with_unfolding_all rfl) "E"⟩

set_option maxHeartbeats 2000000 in
/-- Claim C2 (counterexample): on the demo graph built undirected from the
specification's edge list, the distance from `A` to `E` computed by the code
is 9 (via A-C-B-E, 2+1+6), not the 10 stated in the claim. -/
theorem demo_distance_to_E_is_nine_not_ten :
    (demoRun.map fun st => st.dist "E") = .ok (some 9) ∧
    (demoRun.map fun st => st.dist "E") ≠ .ok (some 10) := by
  constructor
  · with_unfolding_all decide
  · with_unfolding_all decide

set_option maxHeartbeats 2000000 in
/-- Claim C2 (amended): the demo run from source `A` returns distances
A = 0, B = 3, C = 2, D = 8, E = 9, and the reconstructed path from `A` to `E`
has total weight 9. -/
theorem demo_run_expected_values :
    (demoRun.map fun st =>
      (st.dist "A", st.dist "B", st.dist "C", st.dist "D", st.dist "E")) =
      .ok (some 0, some 3, some 2, some 8, some 9) ∧
    (demoRun.map fun st =>
      pathWeight st.graph (reconstructPath st.graph.keys st.prev "E")) =
      .ok (some 9) := by
  constructor
  · with_unfolding_all decide
  · with_unfolding_all decide

/-- Claim C3: for every graph state and all vertices and weights with
`w < 0`, `add_edge` fails with the invalid-weight error, and no graph is
produced, so the adjacency mapping is left exactly as it was (the functional
embedding returns the new graph only on success). -/
theorem addEdge_rejects_negative_weight {V : Type} [DecidableEq V] [LinearOrder V]
    (g : Graph V) (u v : V) (w : ℚ) (und : Bool) (hw : w < 0) :
    g.addEdge u v w und = .error invalidWeightMsg ∧
    ∀ g2, g.addEdge u v w und ≠ .ok g2 := by
  have h1 : g.addEdge u v w und = .error invalidWeightMsg := by
    unfold Graph.addEdge
    rw [if_pos hw]
  refine ⟨h1, fun g2 hc => ?_⟩
  rw [h1] at hc
  exact absurd hc (by simp)

/-- Witness for claim C3 on the empty graph with weight `-1`. -/
theorem addEdge_rejects_negative_weight_witness :
    ((-1 : ℚ) < 0) ∧
    ((Graph.empty : Graph String).addEdge "A" "B" (-1) true =
        .error invalidWeightMsg ∧
      ∀ g2, (Graph.empty : Graph String).addEdge "A" "B" (-1) true ≠ .ok g2) :=
  ⟨by norm_num,
    addEdge_rejects_negative_weight Graph.empty "A" "B" (-1) true (by norm_num)⟩

/-- Claim C4: `dijkstra` fails with the unknown-source error exactly when the
requested source was never inserted into the graph, and for a known source it
returns a result, never that error. -/
theorem dijkstra_unknown_source_error {V : Type} [DecidableEq V] [LinearOrder V]
    (g : Graph V) (s : V) :
    (s ∉ g.keys ↔ g.dijkstra s = .error unknownSourceMsg) ∧
    (s ∈ g.keys → ∃ st, g.dijkstra s = .ok st) := by
  by_cases hs : s ∈ g.keys
  · refine ⟨⟨fun hc => absurd hs hc, fun hc => ?_⟩,
      fun _ => ⟨loopN (g.totalDeg + 2) (initState g s), ?_⟩⟩
    · simp [Graph.dijkstra, hs] at hc
    · simp [Graph.dijkstra, hs]
  · refine ⟨⟨fun _ => ?_, fun _ => hs⟩, fun hc => absurd hc hs⟩
    simp [Graph.dijkstra, hs]

set_option maxHeartbeats 2000000 in
/-- Witness for claim C4, instantiated on the demo graph with the known
source `A` and the unknown source `Z`. -/
theorem dijkstra_unknown_source_error_witness :
    (("Z" ∉ demoG.keys ↔ demoG.dijkstra "Z" = .error unknownSourceMsg) ∧
      ("Z" ∈ demoG.keys → ∃ st, demoG.dijkstra "Z" = .ok st)) ∧
    (("A" ∉ demoG.keys ↔ demoG.dijkstra "A" = .error unknownSourceMsg) ∧
      ("A" ∈ demoG.keys → ∃ st, demoG.dijkstra "A" = .ok st)) :=
  ⟨dijkstra_unknown_source_error demoG "Z", dijkstra_unknown_source_error demoG "A"⟩

/-- Claim C5: for the predecessor map of a run, a target that is not a key of
the map reconstructs to the empty sequence; a known target with no
predecessor other than the source reconstructs to the one-element sequence
`[target]`; and a vertex with infinite distance never yields a multi-hop
path (its reconstruction has at most one element). -/
theorem reconstructPath_unreachable_cases {V : Type} [DecidableEq V] [LinearOrder V]
    (g : Graph V) (s : V) (st : DState V) (hwf : g.WF)
    (hrun : g.dijkstra s = .ok st) (t : V) :
    (t ∉ g.keys → reconstructPath g.keys st.prev t = []) ∧
    (t ∈ g.keys → st.prev t = none → t ≠ s →
      reconstructPath g.keys st.prev t = [t]) ∧
    (st.dist t = none → (reconstructPath g.keys st.prev t).length ≤ 1) := by
  obtain ⟨hI, hempty, hs⟩ := dijkstra_run hwf hrun
  have hone : t ∈ g.keys → st.prev t = none →
      reconstructPath g.keys st.prev t = [t] := by
    intro ht hp
    rw [reconstructPath, if_pos ht, walkBack_succ, hp, walkBack_none]
    rfl
  refine ⟨?_, fun ht hp _ => hone ht hp, ?_⟩
  · intro ht
    rw [reconstructPath, if_neg ht]
  · intro hnone
    have hp : st.prev t = none := by
      cases hpc : st.prev t with
      | none => rfl
      | some u =>
        obtain ⟨du, dt, _, hdt, _⟩ := hI.prevDist t u hpc
        rw [hnone] at hdt
        exact absurd hdt (by simp)
    by_cases ht : t ∈ g.keys
    · rw [hone ht hp]
      simp
    · rw [reconstructPath, if_neg ht]
      simp

set_option maxHeartbeats 2000000 in
/-- Witness for claim C5 on the two-component graph, with the known but
unreachable target `C`. -/
theorem reconstructPath_unreachable_cases_witness :
    pairG.WF ∧ pairG.dijkstra "A" = .ok pairSt ∧
    (("C" ∉ pairG.keys → reconstructPath pairG.keys pairSt.prev "C" = []) ∧
     ("C" ∈ pairG.keys → pairSt.prev "C" = none → "C" ≠ "A" →
        reconstructPath pairG.keys pairSt.prev "C" = ["C"]) ∧
     (pairSt.dist "C" = none →
        (reconstructPath pairG.keys pairSt.prev "C").length ≤ 1)) :=
  ⟨by with_unfolding_all decide, by with_unfolding_all rfl,
    reconstructPath_unreachable_cases pairG "A" pairSt
      (by with_unfolding_all decide) (by with_unfolding_all rfl) "C"⟩

/-- Claim C6: in the predecessor map of a completed run, every vertex with a
finite distance reaches the source by following predecessor links backward in
finitely many steps (at most `|keys| - 1`), the links contain no cycle
through such a vertex, and the reconstructed path for it begins with the
source. -/
theorem predecessor_chains_reach_source {V : Type} [DecidableEq V] [LinearOrder V]
    (g : Graph V) (s : V) (st : DState V) (hwf : g.WF)
    (hrun : g.dijkstra s = .ok st) (v : V) (dv : ℚ)
    (hdv : st.dist v = some dv) :
    (∃ n, n + 1 ≤ g.keys.length ∧ ReachIn st.prev n v s) ∧
    (∀ m, ReachIn st.prev m v v → m = 0) ∧
    (reconstructPath g.keys st.prev v).head? = some s := by
  obtain ⟨hI, hempty, hs⟩ := dijkstra_run hwf hrun
  obtain ⟨hhead, n, hlen, hreach⟩ := reconstruct_head_of_run hwf hrun hdv
  refine ⟨⟨n, hlen, hreach⟩, ?_, hhead⟩
  intro m hm
  have h2 := reach_trans hm hreach
  have h3 := reach_det hI.prevSrc h2 hreach
  omega

set_option maxHeartbeats 2000000 in
/-- Witness for claim C6 on the demo graph at the reachable vertex `E`. -/
theorem predecessor_chains_reach_source_witness :
    demoG.WF ∧ demoG.dijkstra "A" = .ok demoSt ∧ demoSt.dist "E" = some 9 ∧
    ((∃ n, n + 1 ≤ demoG.keys.length ∧ ReachIn demoSt.prev n "E" "A") ∧
     (∀ m, ReachIn demoSt.prev m "E" "E" → m = 0) ∧
     (reconstructPath demoG.keys demoSt.prev "E").head? = some "A") :=
  ⟨by with_unfolding_all decide, by with_unfolding_all rfl,
    by with_unfolding_all decide,
    predecessor_chains_reach_source demoG "A" demoSt
      (by with_unfolding_all decide) (by with_unfolding_all rfl) "E" 9
      (by with_unfolding_all decide)⟩

/-- Claim C7: in every execution, each popped heap entry `(d, u)` satisfies
`dist[u] ≤ d`, so the staleness test `d != dist[u]` used by the code discards
exactly the entries with `d > dist[u]` demanded by the specification, and the
strictly-greater variant of the algorithm returns the same result. -/
theorem stale_test_equivalence {V : Type} [DecidableEq V] [LinearOrder V]
    (g : Graph V) (s : V) (hwf : g.WF) (hs : s ∈ g.keys) :
    (∀ (n : ℕ) (d : ℚ) (u : V) (rest : List (ℚ × V)),
      popMin (loopN n (initState g s)).heap = some ((d, u), rest) →
      ∃ du, (loopN n (initState g s)).dist u = some du ∧ du ≤ d ∧
        (¬ d = du ↔ du < d)) ∧
    g.dijkstraGt s = g.dijkstra s := by
  refine ⟨?_, dijkstraGt_eq hwf⟩
  intro n d u rest hpop
  have hI : Inv g s (loopN n (initState g s)) :=
    loopN_inv hwf n _ (init_inv hwf hs)
  obtain ⟨du, hdu, hle⟩ := hI.dom (d, u) (popMin_mem hpop)
  refine ⟨du, hdu, hle, ?_, ?_⟩
  · intro hne
    exact lt_of_le_of_ne hle fun hc => hne hc.symm
  · intro hlt hc
    rw [hc] at hlt
    exact lt_irrefl _ hlt

set_option maxHeartbeats 2000000 in
/-- Witness for claim C7 on the demo graph with source `A`. -/
theorem stale_test_equivalence_witness :
    demoG.WF ∧ "A" ∈ demoG.keys ∧
    ((∀ (n : ℕ) (d : ℚ) (u : String) (rest : List (ℚ × String)),
        popMin (loopN n (initState demoG "A")).heap = some ((d, u), rest) →
        ∃ du, (loopN n (initState demoG "A")).dist u = some du ∧ du ≤ d ∧
          (¬ d = du ↔ du < d)) ∧
      demoG.dijkstraGt "A" = demoG.dijkstra "A") :=
  ⟨by with_unfolding_all decide, by with_unfolding_all decide,
    stale_test_equivalence demoG "A" (by with_unfolding_all decide)
      (by with_unfolding_all decide)⟩

/-- Claim C8: a completed run leaves the graph exactly as it was: the state
still carries the input graph, with the same key list and, for every vertex,
the same adjacency list (the defaultdict lookups during relaxation create no
new key). -/
theorem dijkstra_preserves_graph {V : Type} [DecidableEq V] [LinearOrder V]
    (g : Graph V) (s : V) (st : DState V) (hwf : g.WF)
    (hrun : g.dijkstra s = .ok st) :
    st.graph = g ∧ st.graph.keys = g.keys ∧ ∀ u, st.graph.adj u = g.adj u := by
  obtain ⟨hI, _, _⟩ := dijkstra_run hwf hrun
  exact ⟨hI.graphEq, by rw [hI.graphEq], fun u => by rw [hI.graphEq]⟩

set_option maxHeartbeats 2000000 in
/-- Witness for claim C8 on the demo graph with source `A`. -/
theorem dijkstra_preserves_graph_witness :
    demoG.WF ∧ demoG.dijkstra "A" = .ok demoSt ∧
    (demoSt.graph = demoG ∧ demoSt.graph.keys = demoG.keys ∧
      ∀ u, demoSt.graph.adj u = demoG.adj u) :=
  ⟨by with_unfolding_all decide, by with_unfolding_all rfl,
    dijkstra_preserves_graph demoG "A" demoSt
      (by with_unfolding_all decide) (by with_unfolding_all rfl)⟩

/-- Claim C9: for a fixed multiset of non-negative-weight edges, graphs built
by any two permutations of the `add_edge` calls yield identical distance
maps from any source. -/
theorem insertion_order_independence {V : Type} [DecidableEq V] [LinearOrder V]
    (es1 es2 : List (V × V × ℚ)) (und : Bool) (hperm : es1.Perm es2)
    (hnn : ∀ e ∈ es1, 0 ≤ e.2.2)
    (g1 g2 : Graph V) (h1 : buildGraph es1 und = .ok g1)
    (h2 : buildGraph es2 und = .ok g2) (s : V) (st1 st2 : DState V)
    (r1 : g1.dijkstra s = .ok st1) (r2 : g2.dijkstra s = .ok st2) :
    ∀ v, st1.dist v = st2.dist v := by
  have hnn2 : ∀ e ∈ es2, 0 ≤ e.2.2 := fun e he => hnn e (hperm.mem_iff.mpr he)
  have hg1 : Good g1 := buildGraph_good hnn h1
  have hg2 : Good g2 := buildGraph_good hnn2 h2
  have h1b : es1.foldlM (fun g e => g.addEdge e.1 e.2.1 e.2.2 und)
      Graph.empty = .ok g1 := h1
  have h2b : es2.foldlM (fun g e => g.addEdge e.1 e.2.1 e.2.2 und)
      Graph.empty = .ok g2 := h2
  have heq : GEquiv g1 g2 :=
    buildFrom_perm und hperm hnn empty_good empty_good (GEquiv_refl _) h1b h2b
  intro v
  obtain ⟨hn1, hs1⟩ := dist_char hg1.2 r1 v
  obtain ⟨hn2, hs2⟩ := dist_char hg2.2 r2 v
  cases hd1 : st1.dist v with
  | none =>
    cases hd2 : st2.dist v with
    | none => rfl
    | some c2 =>
      obtain ⟨hp2, _⟩ := hs2 c2 hd2
      exact absurd ⟨c2, isPath_equiv (GEquiv_symm heq) hp2⟩ (hn1.mp hd1)
  | some c1 =>
    obtain ⟨hp1, hmin1⟩ := hs1 c1 hd1
    cases hd2 : st2.dist v with
    | none =>
      exact absurd ⟨c1, isPath_equiv heq hp1⟩ (hn2.mp hd2)
    | some c2 =>
      obtain ⟨hp2, hmin2⟩ := hs2 c2 hd2
      have hle1 : c1 ≤ c2 := hmin1 c2 (isPath_equiv (GEquiv_symm heq) hp2)
      have hle2 : c2 ≤ c1 := hmin2 c1 (isPath_equiv heq hp1)
      rw [le_antisymm hle1 hle2]

set_option maxHeartbeats 2000000 in
/-- Witness for claim C9: the demo edge list and its reversal build
equivalent graphs whose runs from `A` agree on every distance. -/
theorem insertion_order_independence_witness :
    demoEdges.Perm demoEdgesRev ∧ (∀ e ∈ demoEdges, 0 ≤ e.2.2) ∧
    buildGraph demoEdges true = .ok demoG ∧
    buildGraph demoEdgesRev true = .ok demoGRev ∧
    demoG.dijkstra "A" = .ok demoSt ∧
    demoGRev.dijkstra "A" = .ok demoStRev ∧
    ∀ v, demoSt.dist v = demoStRev.dist v :=
  ⟨(List.reverse_perm demoEdges).symm, by with_unfolding_all decide,
    by with_unfolding_all rfl, by with_unfolding_all rfl,
    by with_unfolding_all rfl, by with_unfolding_all rfl,
    insertion_order_independence demoEdges demoEdgesRev true
      ((List.reverse_perm demoEdges).symm) (by with_unfolding_all decide)
      demoG demoGRev (by with_unfolding_all rfl) (by with_unfolding_all rfl)
      "A" demoSt demoStRev (by with_unfolding_all rfl)
      (by with_unfolding_all rfl)⟩

/-- Claim C10: after a completed run the predecessor of the source is `none`,
so reconstructing the path to the source itself yields exactly the
one-element sequence containing the source, whose first element is the
source (it passes the caller check). -/
theorem source_self_path {V : Type} [DecidableEq V] [LinearOrder V]
    (g : Graph V) (s : V) (st : DState V) (hwf : g.WF)
    (hrun : g.dijkstra s = .ok st) :
    st.prev s = none ∧ reconstructPath g.keys st.prev s = [s] ∧
    (reconstructPath g.keys st.prev s).head? = some s := by
  obtain ⟨hI, hempty, hs⟩ := dijkstra_run hwf hrun
  have hrec : reconstructPath g.keys st.prev s = [s] := by
    rw [reconstructPath, if_pos hs, walkBack_succ, hI.prevSrc, walkBack_none]
    rfl
  refine ⟨hI.prevSrc, hrec, ?_⟩
  rw [hrec]
  rfl

set_option maxHeartbeats 2000000 in
/-- Witness for claim C10 on the demo graph with source `A`. -/
theorem source_self_path_witness :
    demoG.WF ∧ demoG.dijkstra "A" = .ok demoSt ∧
    (demoSt.prev "A" = none ∧
      reconstructPath demoG.keys demoSt.prev "A" = ["A"] ∧
      (reconstructPath demoG.keys demoSt.prev "A").head? = some "A") :=
  ⟨by with_unfolding_all decide, by with_unfolding_all rfl,
    source_self_path demoG "A" demoSt (by with_unfolding_all decide)
      (by with_unfolding_all rfl)⟩

end BasicLemmas

end DijkstraHeap
